import Mathlib

/-!
Verification development for the gdb pretty-printer library
(`gdb/python/lib/google/google3/printers.py` and
`gdb/python/lib/libstdcxx/v6/printers.py`).

The Python printers consume opaque gdb values through the host
introspection API (field projection, dereference, casting, byte
decoding).  The shallow embedding below models each printer as a pure
Lean function over an explicit data model of the inspected memory:

* sizes and presence-bit words are `Int`/`Nat` values,
* the host rendering `str(value)` of a sub-value is an oracle of type
  `Except String String` (`.error e` models a caught Python
  `RuntimeError` whose text is `e`),
* decoded byte ranges are `List Char`,
* a render that raises an uncaught Python exception (a failed `assert`,
  a `KeyError` from a sort-key lookup, a `TypeError` from slicing a
  `None` tag) is modelled by an overall result of `none`.

All definitions are translated from the Python source; doc comments on
each definition name the function being embedded.
-/

namespace GdbPrinters

/-- Run a step function of an iterator at most `n` times, collecting the
yielded values; a `none` result models `StopIteration`. -/
def iterate {σ β : Type _} (step : σ → Option (β × σ)) : Nat → σ → List β
  | 0, _ => []
  | n + 1, s =>
    match step s with
    | none => []
    | some (b, s') => b :: iterate step n s'

/-- Python slice `s[a:b]` for `0 ≤ a ≤ b`, on decoded characters. -/
def pySlice (s : List Char) (a b : Nat) : List Char :=
  (s.drop a).take (b - a)

/-- The Python pattern `if limit and limit < n: n = limit` used by the
printers to clamp a size against the global `print elements` parameter
(`None` and `0` are falsy, hence never clamp). -/
def clampSize (limit : Option Int) (n : Int) : Int :=
  match limit with
  | some k => if k ≠ 0 ∧ k < n then k else n
  | none => n

/-! ## Cord (rope) printer: `CordPrinter` -/

/-- A `CordRep` tree node, as read by `CordPrinter.print_rep`.  Every
node carries the `length` field of the C struct.  The constructor
corresponds to the node tag: `concat` is tag 0, `function` tag 1,
`substring` tag 2, `flat` any tag `>= TAG_FLAT` (the allocation-size
tags), and `unknown` a corrupted tag hitting the fall-through branch.
`flat.data` is the raw byte area, decoded as characters. -/
inductive CordRep where
  | concat (length : Nat) (left right : CordRep)
  | function (length : Nat)
  | substring (length : Nat) (start : Nat) (child : CordRep)
  | flat (length : Nat) (data : List Char)
  | unknown (length : Nat) (tag : Nat)
deriving Repr

/-- The `length` field of a `CordRep`. -/
def CordRep.lengthOf : CordRep → Nat
  | .concat len _ _ => len
  | .function len => len
  | .substring len _ _ => len
  | .flat len _ => len
  | .unknown len _ => len

/-- `CordPrinter.print_rep`: recursive rendering of a `CordRep` tree.
Flat nodes decode `length` bytes (`data.string(..., length)`), concat
nodes concatenate the children, substring nodes slice the rendered
child by `[start : start + length]`, function nodes and unknown tags
render fixed placeholders. -/
def printRep : CordRep → List Char
  | .flat len data => data.take len
  | .concat _ l r => printRep l ++ printRep r
  | .substring len start child => pySlice (printRep child) start (start + len)
  | .function _ => "<cord function>".toList
  | .unknown _ tag => ("<unknown tag: " ++ toString tag ++ ">").toList

/-- The display-limit clause of `CordPrinter.to_string`:
`if limit and limit < len(body): body = body[0:limit] + " ..."`. -/
def applyLimit (limit : Option Int) (body : List Char) : List Char :=
  match limit with
  | some k =>
    if k ≠ 0 ∧ k < (body.length : Int) then body.take k.toNat ++ " ...".toList
    else body
  | none => body

/-- `CordPrinter.to_string` (the common summary assembly, after the
two-layout probing has produced the root rep and its refcount). -/
def cordToString (limit : Option Int) (refcount : Nat) (rep : CordRep) : String :=
  "Cord of length " ++ toString rep.lengthOf ++ ", refcnt " ++ toString refcount
    ++ ": \"" ++ (applyLimit limit (printRep rep)).asString ++ "\""

/-! ## Proto array printers: `ProtoArrayPrinter`, `ProtoPtrArrayPrinter` -/

/-- The element loop of `ProtoArrayPrinter.to_string`: renders `rem`
elements starting at index `i` with the running `first` flag.  The
space separator and the `name:` tag are appended before `str(value)` is
attempted; a `RuntimeError` from `str` appends an inline error token
and breaks the loop. -/
def protoArrayElems (space : Nat → Except String String) (name : String) :
    Nat → Nat → Bool → String
  | 0, _, _ => ""
  | rem + 1, i, first =>
    let sep := if first then "" else " "
    let pre := if name ≠ "" then name ++ ":" else ""
    match space i with
    | .ok s => sep ++ pre ++ s ++ protoArrayElems space name rem (i + 1) false
    | .error e => sep ++ pre ++ "<GDB/Python runtime error: " ++ e ++ ">"

/-- `ProtoArrayPrinter.to_string`.  `size` is the value of the size
field (`size_` or `current_size_`), `space` is the element area: the
oracle gives `str(space[i])` or the text of a raised `RuntimeError`.
The poison size `0xCDCDCDCD` short-circuits to the dangling marker;
non-positive sizes render the empty string; a truthy limit clamps the
element count; an unnamed render is wrapped in angle brackets. -/
def protoArrayToString (limit : Option Int) (size : Int)
    (space : Nat → Except String String) (name : String) : String :=
  if size = -842150451 then "*** DANGLING ***"
  else if size ≤ 0 then ""
  else
    let n := clampSize limit size
    let body := protoArrayElems space name n.toNat 0 true
    if name ≠ "" then body else "<" ++ body ++ ">"

/-- `ProtoPtrArrayPrinter.to_string`: identical control flow to
`ProtoArrayPrinter.to_string`; the per-element cast and dereference
(`space[i].cast(tp).dereference()`) happen inside the host, so `space`
here is the oracle for `str` of the already-dereferenced element. -/
def protoPtrArrayToString (limit : Option Int) (size : Int)
    (space : Nat → Except String String) (name : String) : String :=
  if size = -842150451 then "*** DANGLING ***"
  else if size ≤ 0 then ""
  else
    let n := clampSize limit size
    let body := protoArrayElems space name n.toNat 0 true
    if name ≠ "" then body else "<" ++ body ++ ">"

/-! ## StringPiece printer: `StringPiecePrinter` -/

/-- `StringPiecePrinter.to_string`.  `length0` is the `length_` field,
`mem` the bytes at `ptr_` (assumed long enough); `ptr.string(...,
length)` decodes `length` characters.  Note that the marker test
`length > limit` runs after `length` has already been clamped. -/
def stringPieceToString (limit : Option Int) (length0 : Int) (mem : List Char) : String :=
  let length := clampSize limit length0
  let s := (mem.take length.toNat).asString
  let s2 := if limit.isSome ∧ length > limit.getD 0 then s ++ " ..." else s
  "StringPiece of length " ++ toString length ++ ": \"" ++ s2 ++ "\""

/-! ## Protocol-message printers: `ProtoMessagePrinter`,
`Proto1MessagePrinter`, `Proto2MessagePrinter`

A message value is modelled by the list of its type fields together
with the host data each printer reads.  A field carries the
(typedef-stripped) tag of its type (`none` when the type has no tag)
and its value: either an opaque scalar whose host rendering
`str(value)` is given as an `Except` oracle (`.error e` = a raised
`RuntimeError` with text `e`; the one-level pointer dereference for
by-reference optional fields and the octal fallback for non-ASCII
strings happen host-side inside the oracle), or a proto array value
with its size field and element-rendering oracle. -/

/-- The value stored in a message field. -/
inductive FieldVal where
  | scalar (render : Except String String)
  | arr (size : Int) (elems : Nat → Except String String)

/-- A field of a message type, as enumerated by `self.type.fields()`.
`bitpos = none` models a field without storage offset (static).
`kHasBit` is the Proto1-only lookup `self.val['kHasBit_<name>']`
(`none` = the lookup raised); Proto2 code never reads it. -/
structure PField where
  name : String
  bitpos : Option Nat
  tag : Option String
  kHasBit : Option Int
  val : FieldVal

/-- String prefix test, modelling Python `s[:len(p)] == p` and the
anchored regex matches used for tag dispatch. -/
def startsWithStr (p s : String) : Bool :=
  p.toList.isPrefixOf s.toList

/-- Python `name[:-1]`: strip the trailing underscore of a field name. -/
def pyDropLast (s : String) : String :=
  s.toList.dropLast.asString

/-- The ASCII apostrophe character (code 39), used in rendered error
text. -/
def apos : String := String.singleton (Char.ofNat 39)

/-- `ProtoMessagePrinter.repeated_field`, dispatching on the field type
tag.  A `none` result models an uncaught Python exception: slicing a
`None` tag (`tp.tag[:10]`) raises `TypeError`.  The four array tags
funnel into the corresponding array printer with the field name minus
its trailing underscore; any other tag raises `RuntimeError` (caught
by the callers).  The message-set `items_` pointer special case is not
modelled.  A field whose tag names an array type but whose value is
not an array cannot arise from a real inspected value; the model maps
it to `none`. -/
def repeatedField (limit : Option Int) (f : PField) : Option (Except String String) :=
  match f.tag with
  | none => none
  | some tg =>
    if startsWithStr "ProtoArray" tg then
      match f.val with
      | .arr size elems => some (.ok (protoArrayToString limit size elems (pyDropLast f.name)))
      | .scalar _ => none
    else if startsWithStr "proto2::RepeatedField" tg then
      match f.val with
      | .arr size elems => some (.ok (protoArrayToString limit size elems (pyDropLast f.name)))
      | .scalar _ => none
    else if startsWithStr "ProtoPtrArray" tg then
      match f.val with
      | .arr size elems => some (.ok (protoPtrArrayToString limit size elems (pyDropLast f.name)))
      | .scalar _ => none
    else if startsWithStr "proto2::RepeatedPtrField" tg then
      match f.val with
      | .arr size elems => some (.ok (protoPtrArrayToString limit size elems (pyDropLast f.name)))
      | .scalar _ => none
    else
      some (.error ("Don" ++ apos ++ "t know how to handle " ++ tg))

/-- `str(value)` on a field value: a scalar yields its host rendering;
an array-typed member re-enters the registered array printer, which
was constructed with the default empty name. -/
def strOfVal (limit : Option Int) (v : FieldVal) : Except String String :=
  match v with
  | .scalar r => r
  | .arr size elems => .ok (protoArrayToString limit size elems "")

/-- The loop of `ProtoMessagePrinter.to_string_repeated_only` over
`self.type.fields()[1:]`: break at `unknown_fields_`, skip
underscore-prefixed bookkeeping fields and static fields, render each
remaining field through `repeated_field`, keeping only non-empty
renders; a caught `RuntimeError` appends an inline error token naming
the full field name.  The result includes the closing bracket. -/
def repOnlyWalk (limit : Option Int) : List PField → Bool → Option String
  | [], _ => some ">"
  | f :: rest, first =>
    if f.name = "unknown_fields_" then some ">"
    else if startsWithStr "_" f.name then repOnlyWalk limit rest first
    else
      match f.bitpos with
      | none => repOnlyWalk limit rest first
      | some _ =>
        match repeatedField limit f with
        | none => none
        | some (.ok t) =>
          if t ≠ "" then
            (repOnlyWalk limit rest false).map
              (fun out => (if first then "" else " ") ++ t ++ out)
          else repOnlyWalk limit rest first
        | some (.error e) =>
          (repOnlyWalk limit rest first).map
            (fun out => "<" ++ f.name ++ ": GDB/Python runtime error: " ++ e ++ ">" ++ out)

/-- `ProtoMessagePrinter.to_string_repeated_only` on the type field
list (whose first entry is the message base class, skipped). -/
def toStringRepeatedOnly (limit : Option Int) (fields : List PField) : Option String :=
  (repOnlyWalk limit (fields.drop 1) true).map (fun out => "<" ++ out)

/-! ### Variant A: `Proto1MessagePrinter` -/

/-- A Proto1 message value: whether the type has a `hasbits_` field,
the bytes of `hasbits_`, and the type field list (first entry is the
`ProtocolMessage` base). -/
structure P1Msg where
  hasHasbits : Bool
  hasbitsBytes : List Nat
  fields : List PField

/-- The presence-bitmap assembly of `Proto1MessagePrinter.to_string`:
`bits |= hasbits[i] << (8*i)` over the bytes of `hasbits_`. -/
def assembleBitsAux : List Nat → Nat → Nat
  | [], _ => 0
  | b :: rest, i => (b <<< (8 * i)) ||| assembleBitsAux rest (i + 1)

/-- Presence bitmap word assembled from the `hasbits_` bytes. -/
def assembleBits (bytes : List Nat) : Nat := assembleBitsAux bytes 0

/-- The anomaly token `"<%s: bad kHasBit value: %d>" % (field.name,
kBit)` rendered for a negative presence-bit constant. -/
def badHasBitToken (fname : String) (k : Int) : String :=
  "<" ++ fname ++ ": bad kHasBit value: " ++ toString k ++ ">"

/-- The field loop of `Proto1MessagePrinter.to_string`: skip
`unknown_fields_`, `hasbits_`, underscore-prefixed and static fields;
a field without a `kHasBit_<name>` constant goes through
`repeated_field` (shown only if non-empty); a non-negative constant
selects on the presence bit; a negative constant renders the explicit
bad-kHasBit anomaly token.  Caught `RuntimeError`s become inline error
tokens naming the stripped field name.  The result includes the
closing bracket; `none` propagates an uncaught exception. -/
def p1Walk (limit : Option Int) (bits : Nat) : List PField → Bool → Option String
  | [], _ => some ">"
  | f :: rest, first =>
    if f.name = "unknown_fields_" ∨ f.name = "hasbits_" ∨ startsWithStr "_" f.name then
      p1Walk limit bits rest first
    else
      let name := pyDropLast f.name
      match f.bitpos with
      | none => p1Walk limit bits rest first
      | some _ =>
        match f.kHasBit with
        | none =>
          match repeatedField limit f with
          | none => none
          | some (.ok t) =>
            if t ≠ "" then
              (p1Walk limit bits rest false).map
                (fun out => (if first then "" else " ") ++ t ++ out)
            else p1Walk limit bits rest first
          | some (.error e) =>
            (p1Walk limit bits rest first).map
              (fun out => "<" ++ name ++ ": GDB/Python runtime error: " ++ e ++ ">" ++ out)
        | some k =>
          if 0 ≤ k then
            if bits.testBit k.toNat then
              let sep := if first then "" else " "
              match strOfVal limit f.val with
              | .ok s =>
                (p1Walk limit bits rest false).map
                  (fun out => sep ++ name ++ ":" ++ s ++ out)
              | .error e =>
                (p1Walk limit bits rest first).map
                  (fun out => sep ++ "<" ++ name ++ ": GDB/Python runtime error: " ++ e ++ ">" ++ out)
            else p1Walk limit bits rest first
          else
            (p1Walk limit bits rest false).map
              (fun out => (if first then "" else " ") ++ badHasBitToken f.name k ++ out)

/-- `Proto1MessagePrinter.to_string`: messages without `hasbits_`
contain only repeated fields; otherwise assemble the presence bitmap
and walk the fields (first entry, the base class, skipped).  The
whole-message `RuntimeError` guard around the bitmap read is a host
failure, modelled as always succeeding. -/
def p1ToString (limit : Option Int) (msg : P1Msg) : Option String :=
  if !msg.hasHasbits then toStringRepeatedOnly limit msg.fields
  else
    (p1Walk limit (assembleBits msg.hasbitsBytes) (msg.fields.drop 1) true).map
      (fun out => "<" ++ out)

/-! ### Variant B: `Proto2MessagePrinter` -/

/-- `dict_key` of `Proto2MessagePrinter.sort_data_fields`: lower-case
the name and delete every underscore. -/
def dictKey (s : String) : String :=
  ((s.toList.map Char.toLower).filter (fun c => c ≠ '_')).asString

/-- Python `name[1:-11]`: take `"Foo"` from `"kFooFieldNumber"`. -/
def stripKFieldNumber (s : String) : String :=
  let l := s.toList.drop 1
  (l.take (l.length - 11)).asString

/-- The anchored regex `^k.*FieldNumber(_[0-9]*)?$` recognising the
`k<name>FieldNumber` constant fields (optionally suffixed by an
underscore and digits by `FieldConstantName`). -/
def isFieldNumberName (s : String) : Bool :=
  match s.toList with
  | 'k' :: rest =>
    let r := rest.reverse
    let fn := "FieldNumber".toList.reverse
    fn.isPrefixOf r ||
      (match r.dropWhile Char.isDigit with
       | '_' :: r2 => fn.isPrefixOf r2
       | _ => false)
  | _ => false

/-- Lookup in the association-list model of the Python `sort_dict`. -/
def alookup : List (String × Nat) → String → Option Nat
  | [], _ => none
  | (k, v) :: rest, key => if k = key then some v else alookup rest key

/-- The duplicate-detection loop of `sort_data_fields`: fold over the
`k<name>FieldNumber` names with their running index, recording the
first index of each key and taking, over all collisions, the smallest
first-occurrence index as `dup_index`. -/
def buildSortDict : List String → Nat → List (String × Nat) → Option Nat →
    List (String × Nat) × Option Nat
  | [], _, dict, dup => (dict, dup)
  | nm :: rest, i, dict, dup =>
    let key := dictKey (stripKFieldNumber nm)
    match alookup dict key with
    | some index =>
      let dup' :=
        match dup with
        | none => some index
        | some d => if index < d then some index else some d
      buildSortDict rest (i + 1) dict dup'
    | none => buildSortDict rest (i + 1) (dict ++ [(key, i)]) dup

/-- Stable insertion of `x` before the first element with a strictly
larger key. -/
def insertSorted {α : Type _} (key : α → Nat) (x : α) : List α → List α
  | [] => [x]
  | y :: ys => if key x ≤ key y then x :: y :: ys else y :: insertSorted key x ys

/-- Stable ascending sort by key, modelling Python `list.sort(key=...)`
(Python sorts are stable). -/
def sortByKey {α : Type _} (key : α → Nat) : List α → List α
  | [] => []
  | x :: xs => insertSorted key x (sortByKey key xs)

/-- The partition loop of `Proto2MessagePrinter.sorted_printable_fields`
over `self.type.fields()[1:]`: record the presence of `_extensions_`,
skip the other underscore-prefixed bookkeeping fields, collect the
names of the `k<name>FieldNumber` fields in declaration order, and
collect the data fields (those with a storage offset). -/
def partitionP2 : List PField → Bool × List String × List PField
  | [] => (false, [], [])
  | f :: rest =>
    let (e, fnf, data) := partitionP2 rest
    if f.name = "_extensions_" then (true, fnf, data)
    else if startsWithStr "_" f.name then (e, fnf, data)
    else if isFieldNumberName f.name then (e, f.name :: fnf, data)
    else
      match f.bitpos with
      | some _ => (e, fnf, f :: data)
      | none => (e, fnf, data)

/-- `Proto2MessagePrinter.sorted_printable_fields` (with
`sort_data_fields` inlined): partition the type fields, check the
`assert len(field_number_fields) >= len(data_fields)` (a violation
raises `AssertionError`, modelled by `none`), compute the duplicate
index, and stably sort the data fields by their reconstructed proxy
index; a data field whose key is absent from the dictionary raises
`KeyError` during the sort (modelled by `none`). -/
def sortedPrintableFields (fields : List PField) :
    Option (Bool × Option Nat × List PField) :=
  let (ext, fnfNames, dataFields) := partitionP2 (fields.drop 1)
  if dataFields.length ≤ fnfNames.length then
    let (dict, dup) := buildSortDict fnfNames 0 [] none
    if dataFields.all (fun f => (alookup dict (dictKey f.name)).isSome) then
      some (ext, dup,
        sortByKey (fun f => (alookup dict (dictKey f.name)).getD 0) dataFields)
    else none
  else none

/-- A Proto2 message value: whether the type has a `_has_bits_` field,
the word `_has_bits_[0]`, the `_M_node_count` of the extension map
(read only when an `_extensions_` field is present), and the type
field list (first entry is the `proto2::Message` base). -/
structure P2Msg where
  hasHasBits : Bool
  hasBits : Nat
  extCount : Int
  fields : List PField

/-- `tp.tag and re.compile('^proto2::Repeated').match(tp.tag)` -/
def isRepeatedTag (f : PField) : Bool :=
  match f.tag with
  | some tg => startsWithStr "proto2::Repeated" tg
  | none => false

/-- The `[ MessageSet with N element(s) ]` chunk for the extension
field of `Proto2MessagePrinter.to_string`. -/
def msgSetText (n : Int) : String :=
  "[ MessageSet with " ++ toString n ++ " element" ++ (if n ≠ 1 then "s" else "") ++ " ]"

/-- The field loop of `Proto2MessagePrinter.to_string` over the sorted
data fields, with the running bit index `kBit` and `first` flag.  When
a duplicate proxy index was found and `kBit` reaches it, a single
terminal unavailable marker is appended and the walk returns.  A set
presence bit renders `name:value`; a clear bit on a
`proto2::Repeated*` field attempts the repeated rendering, shown only
if non-empty; caught `RuntimeError`s become inline tokens.  The result
includes the closing bracket; `none` propagates an uncaught
exception. -/
def p2Walk (limit : Option Int) (bits : Nat) (dup : Option Nat) :
    List PField → Nat → Bool → Option String
  | [], _, _ => some ">"
  | f :: rest, kBit, first =>
    let name := pyDropLast f.name
    if (match dup with | some d => decide (d ≤ kBit) | none => false) then
      some " remaining fields are unavailable>"
    else if bits.testBit kBit then
      let sep := if first then "" else " "
      match strOfVal limit f.val with
      | .ok s =>
        (p2Walk limit bits dup rest (kBit + 1) false).map
          (fun out => sep ++ name ++ ":" ++ s ++ out)
      | .error e =>
        (p2Walk limit bits dup rest (kBit + 1) first).map
          (fun out => sep ++ "<" ++ name ++ ": GDB/Python runtime error: " ++ e ++ ">" ++ out)
    else if isRepeatedTag f then
      match repeatedField limit f with
      | none => none
      | some (.ok t) =>
        if t ≠ "" then
          (p2Walk limit bits dup rest (kBit + 1) false).map
            (fun out => (if first then "" else " ") ++ t ++ out)
        else p2Walk limit bits dup rest (kBit + 1) first
      | some (.error e) =>
        (p2Walk limit bits dup rest (kBit + 1) first).map
          (fun out => "<" ++ name ++ ": GDB/Python runtime error: " ++ e ++ ">" ++ out)
    else p2Walk limit bits dup rest (kBit + 1) first

/-- `Proto2MessagePrinter.to_string`: messages without `_has_bits_`
contain only repeated fields; otherwise sort the printable fields,
prepend the MessageSet chunk when an `_extensions_` field exists, and
walk the sorted data fields.  The whole-message `RuntimeError` guard
around the host reads is modelled as always succeeding; the failed
assert and `KeyError` paths give `none`. -/
def p2ToString (limit : Option Int) (msg : P2Msg) : Option String :=
  if !msg.hasHasBits then toStringRepeatedOnly limit msg.fields
  else
    match sortedPrintableFields msg.fields with
    | none => none
    | some (ext, dup, flds) =>
      let extChunk := if ext then msgSetText msg.extCount else ""
      (p2Walk limit msg.hasBits dup flds 0 true).map (fun out => "<" ++ extChunk ++ out)

/-! ## The inheritance probe: `inherits_from_p` -/

mutual
/-- A gdb type descriptor as seen by `inherits_from_p`: the
(typedef-stripped) tag and the ordered declared fields. -/
inductive GType where
  | mk (tag : Option String) (fields : List GField)
/-- A declared field: name, storage offset (`none` models a static
field, whose `bitpos` access raises), and its (typedef-stripped)
type. -/
inductive GField where
  | mk (name : String) (bitpos : Option Nat) (ftype : GType)
end

/-- The tag of a type descriptor. -/
def GType.tag : GType → Option String
  | .mk t _ => t

/-- The declared fields of a type descriptor. -/
def GType.fields : GType → List GField
  | .mk _ fs => fs

/-- The storage offset of a field. -/
def GField.bitpos : GField → Option Nat
  | .mk _ b _ => b

/-- The type of a field. -/
def GField.ftype : GField → GType
  | .mk _ _ t => t

/-- `f0type.tag in candidates`: a `None` tag is never an element of a
list of strings. -/
def tagMem (t : Option String) (c : List String) : Bool :=
  match t with
  | some s => c.contains s
  | none => false

/-- `inherits_from_p`: probe whether a type inherits from one of the
candidate tags by recursing on the first declared field only.  No
fields, or a static first field, yields `None` (indeterminate); a
first field whose type tag is a candidate yields `True`; otherwise
recurse into the first field type. -/
def inherits_from_p (c : List String) : GType → Option Bool
  | .mk _ [] => none
  | .mk _ (.mk _ none _ :: _) => none
  | .mk _ (.mk _ (some _) ft :: _) =>
    if tagMem ft.tag c then some true else inherits_from_p c ft

/-- The chain of first instance fields starting at a type reaches a
type whose tag is in the candidate set.  (The specification-side
reading of the probe: used to state that the probe answers yes exactly
on such chains.) -/
inductive FirstFieldChain (c : List String) : GType → Prop
  | found (tag : Option String) (nm : String) (b : Nat) (ft : GType) (rest : List GField) :
      tagMem ft.tag c = true →
      FirstFieldChain c (.mk tag (.mk nm (some b) ft :: rest))
  | step (tag : Option String) (nm : String) (b : Nat) (ft : GType) (rest : List GField) :
      FirstFieldChain c ft →
      FirstFieldChain c (.mk tag (.mk nm (some b) ft :: rest))

/-! ## Hashed-container iterators

### Chained-bucket family: `_HashTableIterator` (`google3/printers.py`)

The hashtable is modelled by its bucket array: a list of chains, each
chain the list of stored elements in link order; a null chain head is
the empty list.  `size` is the `_M_num_elements` field. -/

/-- Iterator state: elements yielded so far, current bucket index,
position inside the current bucket chain. -/
structure HtState where
  count : Nat
  bucket : Nat
  listpos : Nat
deriving Repr, DecidableEq

/-- Offset of the first non-empty chain in a bucket-array suffix (the
whole suffix length if all are empty). -/
def findNonemptyAux {α : Type _} : List (List α) → Nat
  | [] => 0
  | c :: rest => if c.isEmpty then 1 + findNonemptyAux rest else 0

/-- The bucket scan `while self.bucket < self.nbuckets: if
v[self.bucket]: break; self.bucket += 1`: first index at or after `b`
whose chain is non-empty, or the bucket count. -/
def findNonempty {α : Type _} (bs : List (List α)) (b : Nat) : Nat :=
  b + findNonemptyAux (bs.drop b)

/-- `_HashTableIterator.next`: stop once the declared count is reached
or the buckets are exhausted; otherwise scan to the next non-empty
bucket, walk `listpos` links into its chain, and either yield the
element there or — when the chain has been consumed — advance to the
next bucket and retry (`return self.next()`). -/
def htNext {α : Type _} (bs : List (List α)) (size : Nat) (s : HtState) :
    Option (α × HtState) :=
  if size ≤ s.count ∨ bs.length ≤ s.bucket then none
  else
    have hb : s.bucket ≤ findNonempty bs s.bucket := Nat.le_add_right _ _
    if h : bs.length ≤ findNonempty bs s.bucket then none
    else
      match (bs.get ⟨findNonempty bs s.bucket, by omega⟩).drop s.listpos with
      | x :: _ =>
        some (x, ⟨s.count + 1, findNonempty bs s.bucket, s.listpos + 1⟩)
      | [] => htNext bs size ⟨s.count, findNonempty bs s.bucket + 1, 0⟩
termination_by bs.length - s.bucket
decreasing_by omega

/-! ### Bucket-with-terminal family: `Tr1HashtableIterator`
(`libstdcxx/v6/printers.py`)

The bucket array holds chain heads and is followed by a non-null
sentinel (the implicit terminal bucket), so the cursor advance across
empty buckets always halts.  `_M_element_count` (bound `n` below) is
the declared element count. -/

/-- The node cursor of `Tr1HashtableIterator`: a pointer into a chain
(`chain []` is the null pointer), the non-null terminal bucket head
past the array, or the Python `False` assigned when iteration is
finished. -/
inductive Tr1Node (α : Type _) where
  | chain (rest : List α)
  | terminal
  | done
deriving Repr, DecidableEq

/-- Iterator state of `Tr1HashtableIterator`. -/
structure Tr1State (α : Type _) where
  count : Nat
  bucket : Nat
  node : Tr1Node α
deriving Repr, DecidableEq

/-- `self.bucket[i]`: the chain head of bucket `i`, or the terminal
sentinel past the end of the array. -/
def bucketHead {α : Type _} (bs : List (List α)) (i : Nat) : Tr1Node α :=
  if h : i < bs.length then .chain (bs.get ⟨i, h⟩) else .terminal

/-- The cursor advance `while self.node == 0: self.bucket += 1;
self.node = self.bucket[0]`, run with explicit fuel (the terminal
sentinel stops it within `bs.length + 1` steps from any in-range
bucket). -/
def tr1SkipAux {α : Type _} (bs : List (List α)) :
    Nat → Nat → Tr1Node α → Nat × Tr1Node α
  | 0, bucket, node => (bucket, node)
  | fuel + 1, bucket, node =>
    match node with
    | .chain [] => tr1SkipAux bs fuel (bucket + 1) (bucketHead bs (bucket + 1))
    | _ => (bucket, node)

/-- The cursor advance loop with its sufficient fuel. -/
def tr1Skip {α : Type _} (bs : List (List α)) (bucket : Nat) (node : Tr1Node α) :
    Nat × Tr1Node α :=
  tr1SkipAux bs (bs.length + 1) bucket node

/-- `Tr1HashtableIterator.update`: advance off empty chains, then
either mark iteration finished (`self.node = False`) when the declared
count is reached, or commit one more element. -/
def tr1Update {α : Type _} (bs : List (List α)) (n : Nat) (s : Tr1State α) :
    Tr1State α :=
  let bn := tr1Skip bs s.bucket s.node
  if s.count = n then ⟨s.count, bn.1, .done⟩ else ⟨s.count + 1, bn.1, bn.2⟩

/-- `Tr1HashtableIterator.__init__`: zero declared elements finish
immediately; otherwise start at bucket 0 and run `update`. -/
def tr1Init {α : Type _} (bs : List (List α)) (n : Nat) : Tr1State α :=
  if n = 0 then ⟨0, 0, .done⟩
  else tr1Update bs n ⟨0, 0, bucketHead bs 0⟩

/-- `Tr1HashtableIterator.next`: a falsy cursor (`False` or a null
chain pointer) raises `StopIteration`; otherwise yield the element
under the cursor, step to its `_M_next` link and run `update`.
Dereferencing the terminal sentinel reads unspecified memory in the
source; it is unreachable when the declared count matches the stored
elements, and the model maps it to `none`. -/
def tr1Next {α : Type _} (bs : List (List α)) (n : Nat) (s : Tr1State α) :
    Option (α × Tr1State α) :=
  match s.node with
  | .done => none
  | .chain [] => none
  | .terminal => none
  | .chain (x :: rest) => some (x, tr1Update bs n ⟨s.count, s.bucket, .chain rest⟩)

/-! ## Ordered-container iterator: `RbtreeIterator`
(`libstdcxx/v6/printers.py`)

The physical node structure is modelled by a binary tree; a node is
addressed by its path from the root, and the `_M_left`, `_M_right`,
`_M_parent` links (and the header node, whose left/right point at the
extreme nodes and whose parent is the root) are derived from the
tree.  `_M_node_count` is carried separately, as the iterator trusts
it over the link structure. -/

/-- Physical binary tree of container nodes. -/
inductive BTree (α : Type _) where
  | leaf
  | node (l : BTree α) (v : α) (r : BTree α)
deriving Repr, DecidableEq

/-- Number of nodes. -/
def BTree.size {α : Type _} : BTree α → Nat
  | .leaf => 0
  | .node l _ r => l.size + 1 + r.size

/-- In-order value sequence. -/
def BTree.inorder {α : Type _} : BTree α → List α
  | .leaf => []
  | .node l v r => l.inorder ++ v :: r.inorder

/-- A child direction. -/
inductive Dir where
  | L
  | R
deriving Repr, DecidableEq

/-- A node address: the path from the root. -/
abbrev TPath := List Dir

/-- The subtree rooted at a path, if the path stays inside the tree. -/
def subtreeAt {α : Type _} : BTree α → TPath → Option (BTree α)
  | t, [] => some t
  | .leaf, _ :: _ => none
  | .node l _ _, .L :: p => subtreeAt l p
  | .node _ _ r, .R :: p => subtreeAt r p

/-- Does the path address a node (not a leaf position)? -/
def isNodeAt {α : Type _} (t : BTree α) (p : TPath) : Bool :=
  match subtreeAt t p with
  | some (.node _ _ _) => true
  | _ => false

/-- A node pointer: null, the header node, or a tree node. -/
inductive RPtr where
  | null
  | header
  | node (p : TPath)
deriving Repr, DecidableEq

/-- Path of the minimum (leftmost) node of a subtree. -/
def minPath {α : Type _} : BTree α → TPath
  | .leaf => []
  | .node .leaf _ _ => []
  | .node (.node a b c) _ _ => Dir.L :: minPath (BTree.node a b c)

/-- Path of the maximum (rightmost) node of a subtree. -/
def maxPath {α : Type _} : BTree α → TPath
  | .leaf => []
  | .node _ _ .leaf => []
  | .node _ _ (.node a b c) => Dir.R :: maxPath (BTree.node a b c)

/-- The `_M_left`/`_M_right` child pointer of a tree node. -/
def childPtr {α : Type _} (t : BTree α) (p : TPath) (d : Dir) : RPtr :=
  if isNodeAt t (p ++ [d]) then .node (p ++ [d]) else .null

/-- The `_M_left` link (the header's left is the leftmost node; in an
empty tree the header links to itself). -/
def ptrLeft {α : Type _} (t : BTree α) : RPtr → RPtr
  | .null => .null
  | .header => if isNodeAt t [] then .node (minPath t) else .header
  | .node p => childPtr t p .L

/-- The `_M_right` link (the header's right is the rightmost node). -/
def ptrRight {α : Type _} (t : BTree α) : RPtr → RPtr
  | .null => .null
  | .header => if isNodeAt t [] then .node (maxPath t) else .header
  | .node p => childPtr t p .R

/-- The `_M_parent` link (the root's parent is the header; the
header's parent is the root). -/
def ptrParent {α : Type _} (t : BTree α) : RPtr → RPtr
  | .null => .null
  | .header => if isNodeAt t [] then .node [] else .null
  | .node [] => .header
  | .node (d :: p) => .node ((d :: p).dropLast)

/-- The descent `while node.left: node = node.left`, with fuel. -/
def descendLeft {α : Type _} (t : BTree α) : Nat → RPtr → RPtr
  | 0, n => n
  | fuel + 1, n =>
    match ptrLeft t n with
    | .null => n
    | l => descendLeft t fuel l

/-- The ascent `while node == parent.right: node = parent; parent =
parent.parent`, with fuel; returns the final `(node, parent)` pair. -/
def ascendLoop {α : Type _} (t : BTree α) : Nat → RPtr → RPtr → RPtr × RPtr
  | 0, n, p => (n, p)
  | fuel + 1, n, p =>
    if n = ptrRight t p then ascendLoop t fuel p (ptrParent t p)
    else (n, p)

/-- Fuel bound sufficient for both loops of the successor step. -/
def sizeFuel {α : Type _} (t : BTree α) : Nat := t.size + 2

/-- The successor computation of `RbtreeIterator.next`: descend to the
leftmost node of the right subtree if there is one, else ascend past
right-parents and step to the parent unless its right link closes the
header cycle. -/
def rbStep {α : Type _} (t : BTree α) (x : RPtr) : RPtr :=
  match ptrRight t x with
  | .null =>
    let np := ascendLoop t (sizeFuel t) x (ptrParent t x)
    if ptrRight t np.1 ≠ np.2 then np.2 else np.1
  | r => descendLeft t (sizeFuel t) r

/-- An inspected ordered container: the physical node tree and the
declared `_M_node_count`. -/
structure RbTreeVal (α : Type _) where
  tree : BTree α
  nodeCount : Nat

/-- Iterator state of `RbtreeIterator`. -/
structure RbState where
  node : RPtr
  count : Nat
deriving Repr, DecidableEq

/-- `RbtreeIterator.__init__`: start at `header._M_left` with count
zero. -/
def rbInit {α : Type _} (rt : RbTreeVal α) : RbState :=
  ⟨ptrLeft rt.tree .header, 0⟩

/-- `RbtreeIterator.next`: raise `StopIteration` at the declared
count; otherwise yield the current node and, only if more yields
remain, compute the successor. -/
def rbNext {α : Type _} (rt : RbTreeVal α) (s : RbState) : Option (RPtr × RbState) :=
  if s.count = rt.nodeCount then none
  else
    some (s.node,
      ⟨if s.count + 1 < rt.nodeCount then rbStep rt.tree s.node else s.node,
       s.count + 1⟩)

/-- The stored value at a node pointer (`_M_value_field` read by the
map/set printers). -/
def valueAt {α : Type _} (t : BTree α) : RPtr → Option α
  | .node p =>
    match subtreeAt t p with
    | some (.node _ v _) => some v
    | _ => none
  | _ => none

/-- The in-order sequence of node paths. -/
def inorderPaths {α : Type _} : BTree α → List TPath
  | .leaf => []
  | .node l _ r =>
    ((inorderPaths l).map (Dir.L :: ·)) ++ [[]] ++ ((inorderPaths r).map (Dir.R :: ·))

/-- Structural in-order adjacency of two node paths: either `p` has a
right child and `q` is the leftmost node of that right subtree, or `p`
has no right child and `q` is the ancestor reached by discarding the
trailing right-child edges of `p` and one left-child edge.  (Proof
infrastructure: this is what the in-order successor of `p` looks like,
stated without reference to the iterator.) -/
def adjPaths {α : Type _} (t : BTree α) (p q : TPath) : Prop :=
  (∃ a b c, subtreeAt t (p ++ [Dir.R]) = some (BTree.node a b c) ∧
    q = p ++ Dir.R :: minPath (BTree.node a b c)) ∨
  (isNodeAt t (p ++ [Dir.R]) = false ∧
    ∃ k, p = q ++ Dir.L :: List.replicate k Dir.R)

/-! ## Concrete example values (used by witnesses and counterexamples) -/

/-- The base-class entry of a message type field list (always skipped
by the walks). -/
def exBase : PField := ⟨"base", some 0, none, none, .scalar (.ok "")⟩

/-- Field-number marker constant `kAFieldNumber`. -/
def exKA : PField := ⟨"kAFieldNumber", none, none, none, .scalar (.ok "")⟩

/-- Field-number marker constant `kBFieldNumber`. -/
def exKB : PField := ⟨"kBFieldNumber", none, none, none, .scalar (.ok "")⟩

/-- Field-number marker constant `kCFieldNumber`. -/
def exKC : PField := ⟨"kCFieldNumber", none, none, none, .scalar (.ok "")⟩

/-- Optional data field `a_`, present with value 1. -/
def exA : PField := ⟨"a_", some 0, none, none, .scalar (.ok "1")⟩

/-- Optional data field `b_` (absent in the example bitmap). -/
def exB : PField := ⟨"b_", some 32, none, none, .scalar (.ok "0")⟩

/-- Repeated data field `c_` holding elements 1 and 2. -/
def exC : PField :=
  ⟨"c_", some 64, some "proto2::RepeatedField<int>", none,
   .arr 2 (fun i => .ok (toString (i + 1)))⟩

/-- The example record of the specification: schema fields `a`
(present), `b` (absent), `c` repeated `[1, 2]`, presence bitmap with
only bit 0 (for `a`) set. -/
def msgC2 : P2Msg := ⟨true, 1, 0, [exBase, exKA, exKB, exKC, exA, exB, exC]⟩

/-- Colliding marker constant `kFooFieldNumber` (sort key `foo`). -/
def exKFoo : PField := ⟨"kFooFieldNumber", none, none, none, .scalar (.ok "")⟩

/-- Colliding marker constant `kFoOFieldNumber` (same
case/underscore-insensitive sort key `foo`). -/
def exKFoO : PField := ⟨"kFoOFieldNumber", none, none, none, .scalar (.ok "")⟩

/-- A message whose marker constants collide on the key `foo` at
first-occurrence index 1, while its only data field `a_` has
reconstructed index 0: the duplicate index lies beyond every data
field. -/
def msgC1 : P2Msg := ⟨true, 1, 0, [exBase, exKA, exKFoo, exKFoO, exA]⟩

/-- Data field `foo_bar_` (sort key `foobar`). -/
def exFooBar : PField := ⟨"foo_bar_", some 0, none, none, .scalar (.ok "9")⟩

/-- Data field `fo_obar_` (the same sort key `foobar`). -/
def exFoObar : PField := ⟨"fo_obar_", some 32, none, none, .scalar (.ok "8")⟩

/-- Marker constant `kFooBarFieldNumber`. -/
def exKFooBar : PField := ⟨"kFooBarFieldNumber", none, none, none, .scalar (.ok "")⟩

/-- Marker constant `kFoObarFieldNumber` (collides with
`kFooBarFieldNumber` on key `foobar`). -/
def exKFoObar : PField := ⟨"kFoObarFieldNumber", none, none, none, .scalar (.ok "")⟩

/-- A message with two genuinely colliding data fields: the duplicate
index 0 truncates the whole field walk. -/
def msgDup : P2Msg :=
  ⟨true, 7, 0, [exBase, exKFooBar, exKFoObar, exFooBar, exFoObar]⟩

/-- An empty repeated field (array size 0) used by the C10 witness. -/
def exEmptyArr : PField :=
  ⟨"d_", some 96, some "proto2::RepeatedField<int>", none, .arr 0 (fun _ => .ok "")⟩

/-- A negative-`kHasBit` Proto1 message: field `a_` has constant -3. -/
def exNegA : PField := ⟨"a_", some 0, none, some (-3), .scalar (.ok "1")⟩

/-- Proto1 message for the C3 witness. -/
def msgNeg : P1Msg := ⟨true, [1], [exBase, exNegA]⟩

/-- An unbalanced physical tree used by the C4 witness: root 3 with
left child 1 whose right child is 2 (in-order 1, 2, 3). -/
def exTree : BTree Nat :=
  BTree.node (BTree.node BTree.leaf 1 (BTree.node BTree.leaf 2 BTree.leaf)) 3 BTree.leaf

/-- The C4 witness container: `exTree` with declared node count 3. -/
def exRbt : RbTreeVal Nat := ⟨exTree, 3⟩

/-! # Theorems -/

/-- **C5.** For every rope (Cord) tree, rendering is a homomorphism
over the node structure: a Concat node renders to the concatenation of
its children, a Substring node with start `s` and length `l` renders
to the character slice `[s, s+l)` of the rendered child (the slice is
taken after decoding), and a Flat node built from byte string `S`
(node length = `S.length`, data = `S`) renders to exactly `S` — the
global display limit is applied only later, to the whole rendered
body, in `cordToString`. -/
theorem C5_rope_render_homomorphism :
    (∀ (len : Nat) (l r : CordRep), printRep (.concat len l r) = printRep l ++ printRep r) ∧
    (∀ (len s : Nat) (c : CordRep),
      printRep (.substring len s c) = pySlice (printRep c) s (s + len)) ∧
    (∀ S : List Char, printRep (.flat S.length S) = S) := by
  refine ⟨fun _ _ _ => rfl, fun _ _ _ => rfl, fun S => ?_⟩
  simp [printRep]

/-- **C8.** A proto array whose size field holds the poison sentinel
`0xCDCDCDCD` (read as the signed value -842150451) renders immediately
to the fixed dangling marker, in both the value-array and
pointer-array printers; the result does not depend on the element
space or the field name, i.e. no further field access can influence
it. -/
theorem C8_poison_dangling :
    (∀ (limit : Option Int) (space : Nat → Except String String) (name : String),
      protoArrayToString limit (-842150451) space name = "*** DANGLING ***") ∧
    (∀ (limit : Option Int) (space : Nat → Except String String) (name : String),
      protoPtrArrayToString limit (-842150451) space name = "*** DANGLING ***") := by
  constructor <;> intro limit space name <;> rfl

/-- **C9.** The inheritance probe is tri-state: it answers `none`
(unknown) for a type with no fields or whose first declared field has
no storage offset; it answers `some true` exactly when the chain of
first instance fields reaches a type whose tag is in the candidate
set; and it inspects only the first declared field at each level — the
result is invariant under arbitrary replacement of the remaining
fields. -/
theorem C9_inheritance_probe (c : List String) :
    (∀ tag : Option String, inherits_from_p c (.mk tag []) = none) ∧
    (∀ (tag : Option String) (nm : String) (ft : GType) (rest : List GField),
      inherits_from_p c (.mk tag (.mk nm none ft :: rest)) = none) ∧
    (∀ tp : GType, inherits_from_p c tp = some true ↔ FirstFieldChain c tp) ∧
    (∀ (tag : Option String) (nm : String) (b : Option Nat) (ft : GType)
        (rest rest2 : List GField),
      inherits_from_p c (.mk tag (.mk nm b ft :: rest)) =
        inherits_from_p c (.mk tag (.mk nm b ft :: rest2))) := by
  refine ⟨fun _ => rfl, fun _ _ _ _ => rfl, ?_, ?_⟩
  · intro tp
    induction tp using inherits_from_p.induct c with
    | case1 tag =>
      refine ⟨fun h => ?_, fun h => ?_⟩
      · simp [inherits_from_p] at h
      · cases h
    | case2 tag nm ft rest =>
      refine ⟨fun h => ?_, fun h => ?_⟩
      · simp [inherits_from_p] at h
      · cases h
    | case3 tag nm b ft rest htag =>
      have hl : inherits_from_p c (.mk tag (.mk nm (some b) ft :: rest)) = some true := by
        simp [inherits_from_p, htag]
      rw [hl]
      exact ⟨fun _ => .found tag nm b ft rest htag, fun _ => rfl⟩
    | case4 tag nm b ft rest htag ih =>
      have hl : inherits_from_p c (.mk tag (.mk nm (some b) ft :: rest)) =
          inherits_from_p c ft := by
        simp [inherits_from_p, htag]
      rw [hl, ih]
      constructor
      · exact fun h => .step tag nm b ft rest h
      · intro h
        cases h with
        | found _ _ _ _ _ ht => exact absurd ht htag
        | step _ _ _ _ _ hc => exact hc
  · intro tag nm b ft rest rest2
    cases b with
    | none => rfl
    | some v => simp only [inherits_from_p]

/-- A field (other than the `unknown_fields_` break point) whose
repeated rendering is the empty string can be deleted from the
repeated-only walk without changing the output. -/
theorem repOnlyWalk_skip_empty (limit : Option Int) (f : PField)
    (hname : ¬ f.name = "unknown_fields_")
    (hrf : repeatedField limit f = some (.ok "")) :
    ∀ (fs rest : List PField) (first : Bool),
      repOnlyWalk limit (fs ++ f :: rest) first = repOnlyWalk limit (fs ++ rest) first := by
  intro fs
  induction fs with
  | nil =>
    intro rest first
    simp only [List.nil_append, repOnlyWalk, if_neg hname]
    by_cases h2 : startsWithStr "_" f.name = true
    · simp [h2]
    · simp only [h2, if_false, Bool.false_eq_true]
      cases hbp : f.bitpos with
      | none => simp [hbp]
      | some b => simp [hbp, hrf]
  | cons g gs ih =>
    intro rest first
    simp only [List.cons_append, repOnlyWalk]
    by_cases h1 : g.name = "unknown_fields_"
    · simp [h1]
    · simp only [if_neg h1]
      by_cases h2 : startsWithStr "_" g.name = true
      · simp only [h2, if_true]
        exact ih rest first
      · simp only [h2, if_false, Bool.false_eq_true]
        cases hbp : g.bitpos with
        | none => exact ih rest first
        | some b =>
          cases hrf2 : repeatedField limit g with
          | none => rfl
          | some res =>
            cases res with
            | ok t =>
              dsimp only
              by_cases ht : t = ""
              · simp only [ht, ne_eq, not_true_eq_false, if_false, ite_false]
                exact ih rest first
              · simp only [ne_eq, ht, not_false_eq_true, if_true, ite_true]
                exact congrArg _ (ih rest false)
            | error e =>
              dsimp only
              exact congrArg _ (ih rest first)

/-- **C10.** A proto array whose size field is zero or negative (and
not the poison sentinel) renders to the empty string, with no angle
bracket wrapper even in the unnamed case; consequently a repeated
field whose rendering is empty contributes no token at all to the
enclosing repeated-only record render — deleting it leaves the record
output unchanged. -/
theorem C10_empty_array_contributes_nothing :
    (∀ (limit : Option Int) (size : Int) (space : Nat → Except String String)
        (name : String),
      size ≤ 0 → ¬ size = -842150451 → protoArrayToString limit size space name = "") ∧
    (∀ (limit : Option Int) (base f : PField) (fs rest : List PField),
      ¬ f.name = "unknown_fields_" → repeatedField limit f = some (.ok "") →
      toStringRepeatedOnly limit (base :: (fs ++ f :: rest)) =
        toStringRepeatedOnly limit (base :: (fs ++ rest))) := by
  constructor
  · intro limit size space name h1 h2
    unfold protoArrayToString
    rw [if_neg h2, if_pos h1]
  · intro limit base f fs rest hname hrf
    unfold toStringRepeatedOnly
    simp only [List.drop_succ_cons, List.drop_zero]
    rw [repOnlyWalk_skip_empty limit f hname hrf fs rest true]

/-- Witness for C10: a concrete zero-size array renders empty, and
dropping a concrete empty repeated field from a repeated-only record
leaves the render unchanged. -/
theorem C10_witness :
    protoArrayToString none 0 (fun _ => .ok "x") "" = "" ∧
    toStringRepeatedOnly none [exBase, exEmptyArr] = toStringRepeatedOnly none [exBase] := by
  constructor
  · exact C10_empty_array_contributes_nothing.1 none 0 (fun _ => .ok "x") ""
      (by norm_num) (by norm_num)
  · exact C10_empty_array_contributes_nothing.2 none exBase exEmptyArr [] []
      (by decide) (by rfl)

/-- **C2, counterexample.** On the specified example record (schema
`a` present with value 1, `b` absent, `c` repeated `[1, 2]`, bitmap
with only bit 0 set) the decoder renders `"<a:1 c:1 c:2>"`: the
repeated field `c` is rendered by `ProtoArrayPrinter.to_string` with
the per-element `c:` prefix, not as `c:[1 2]`, so the claimed output
`"<a:1 c:[1 2]>"` is wrong. -/
theorem C2_counterexample :
    p2ToString none msgC2 = some "<a:1 c:1 c:2>" ∧
    some "<a:1 c:1 c:2>" ≠ some ("<a:1 c:[1 2]>" : String) := by
  exact ⟨rfl, by decide⟩

/-- **C2, amended.** The example record renders `"<a:1 c:1 c:2>"`:
fields appear in schema order `a`, `b`, `c`, the absent `b` is
omitted, and `c` is included despite having no presence bit because it
is non-empty — each of its elements is prefixed with the field
name. -/
theorem C2_example_render : p2ToString none msgC2 = some "<a:1 c:1 c:2>" := rfl

/-- **C7, counterexample.** With display limit 2, a StringPiece of
length 3 over bytes `abc` renders `StringPiece of length 2: "ab"` —
truncation occurred (only 2 of the 3 characters are shown) yet the
output contains no dot at all, hence no ` ...` ellipsis marker: the
clause "with a truncation marker ellipsis appended whenever truncation
occurred" is false (the marker test `length > limit` runs only after
`length` has been clamped to the limit). -/
theorem C7_counterexample :
    stringPieceToString (some 2) 3 "abc".toList = "StringPiece of length 2: \"ab\"" ∧
    ("StringPiece of length 2: \"ab\"").toList.count ('.' : Char) = 0 :=
  ⟨rfl, by decide⟩

/-- **C7, amended.** A display limit `K ≥ 1` bounds every render: a
proto array renders exactly as the same array truncated to size
`min size K` (at most `K` elements, no marker); a StringPiece renders
exactly as one of length `min len K` (at most `K` characters, no
marker); a Cord body of at most `K` characters is unchanged while a
longer body is cut to its first `K` characters with the ` ...` marker
appended; a null (`None`) limit reproduces the full content with no
marker. -/
theorem C7_display_limit (K : Int) (hK : 1 ≤ K) :
    (∀ (size : Int) (space : Nat → Except String String) (name : String),
      protoArrayToString (some K) size space name =
        protoArrayToString none (min size K) space name) ∧
    (∀ (len : Int) (mem : List Char),
      stringPieceToString (some K) len mem = stringPieceToString none (min len K) mem) ∧
    (∀ body : List Char, (body.length : Int) ≤ K → applyLimit (some K) body = body) ∧
    (∀ body : List Char, K < (body.length : Int) →
      applyLimit (some K) body = body.take K.toNat ++ " ...".toList) ∧
    (∀ body : List Char, applyLimit none body = body) := by
  refine ⟨?_, ?_, ?_, ?_, fun _ => rfl⟩
  · intro size space name
    simp only [protoArrayToString, clampSize]
    by_cases hp : size = -842150451
    · rw [if_pos hp, if_pos (by omega : min size K = -842150451)]
    · rw [if_neg hp, if_neg (by omega : ¬ min size K = -842150451)]
      by_cases hz : size ≤ 0
      · rw [if_pos hz, if_pos (by omega : min size K ≤ 0)]
      · rw [if_neg hz, if_neg (by omega : ¬ min size K ≤ 0)]
        have hn : (if K ≠ 0 ∧ K < size then K else size) = min size K := by
          by_cases hlt : K < size
          · rw [if_pos ⟨by omega, hlt⟩, min_eq_right (le_of_lt hlt)]
          · rw [if_neg (by omega), min_eq_left (by omega)]
        rw [hn]
  · intro len mem
    simp only [stringPieceToString, clampSize]
    have hn : (if K ≠ 0 ∧ K < len then K else len) = min len K := by
      by_cases hlt : K < len
      · rw [if_pos ⟨by omega, hlt⟩, min_eq_right (le_of_lt hlt)]
      · rw [if_neg (by omega), min_eq_left (by omega)]
    rw [hn]
    have h1 : ¬((some K).isSome = true ∧ min len K > (some K).getD 0) := by
      simp only [Option.isSome_some, Option.getD_some, true_and]
      have := min_le_right len K
      omega
    have h2 : ¬((none : Option Int).isSome = true ∧
        min len K > (none : Option Int).getD 0) := by
      simp
    rw [if_neg h1, if_neg h2]
  · intro body hle
    simp only [applyLimit]
    rw [if_neg (by omega : ¬ (K ≠ 0 ∧ K < (body.length : Int)))]
  · intro body hgt
    simp only [applyLimit]
    rw [if_pos ⟨by omega, hgt⟩]

/-- Witness for the amended C7 at `K = 2`: the concrete array, string
piece and cord-body renders agree with their truncated forms. -/
theorem C7_witness :
    protoArrayToString (some 2) 5 (fun i => .ok (toString i)) "" =
      protoArrayToString none 2 (fun i => .ok (toString i)) "" ∧
    stringPieceToString (some 2) 3 "abc".toList = stringPieceToString none 2 "abc".toList ∧
    applyLimit (some 2) "abc".toList = "ab ...".toList := by
  have h := C7_display_limit 2 (by norm_num)
  refine ⟨h.1 5 (fun i => .ok (toString i)) "", ?_, ?_⟩
  · have h2 := h.2.1 3 "abc".toList
    simpa using h2
  · have h3 := h.2.2.2.1 "abc".toList (by norm_num)
    rw [h3]
    decide

/-- Prepending a chunk preserves token containment. -/
theorem contains_append_left (chunk out tok : String)
    (h : ∃ pre post, out = pre ++ tok ++ post) :
    ∃ pre post, chunk ++ out = pre ++ tok ++ post := by
  obtain ⟨pre, post, rfl⟩ := h
  exact ⟨chunk ++ pre, post, by simp [String.append_assoc]⟩

/-- In the Proto1 field walk, a processed field with a negative
`kHasBit` constant always leaves its anomaly token in the output. -/
theorem p1Walk_negative_token (limit : Option Int) (bits : Nat) (f : PField) (k : Int)
    (hskip : ¬(f.name = "unknown_fields_" ∨ f.name = "hasbits_" ∨
      startsWithStr "_" f.name = true))
    (hbp : f.bitpos.isSome = true) (hk : f.kHasBit = some k) (hneg : k < 0) :
    ∀ (fs : List PField) (first : Bool) (out : String),
      f ∈ fs → p1Walk limit bits fs first = some out →
      ∃ pre post, out = pre ++ badHasBitToken f.name k ++ post := by
  intro fs
  induction fs with
  | nil =>
    intro first out hmem _
    exact absurd hmem (List.not_mem_nil f)
  | cons g gs ih =>
    intro first out hmem hw
    rcases List.mem_cons.mp hmem with heq | hmem2
    · subst heq
      simp only [p1Walk, if_neg hskip] at hw
      obtain ⟨b, hb⟩ := Option.isSome_iff_exists.mp hbp
      rw [hb, hk] at hw
      dsimp only at hw
      rw [if_neg (by omega : ¬ (0:Int) ≤ k)] at hw
      obtain ⟨o2, _, rfl⟩ := Option.map_eq_some'.mp hw
      exact ⟨if first then "" else " ", o2, rfl⟩
    · simp only [p1Walk] at hw
      by_cases h1 : (g.name = "unknown_fields_" ∨ g.name = "hasbits_" ∨
          startsWithStr "_" g.name = true)
      · rw [if_pos h1] at hw
        exact ih first out hmem2 hw
      · rw [if_neg h1] at hw
        cases hbg : g.bitpos with
        | none =>
          rw [hbg] at hw
          exact ih first out hmem2 hw
        | some b =>
          rw [hbg] at hw
          dsimp only at hw
          cases hkg : g.kHasBit with
          | none =>
            rw [hkg] at hw
            dsimp only at hw
            cases hrf : repeatedField limit g with
            | none =>
              rw [hrf] at hw
              exact absurd hw (by simp)
            | some res =>
              rw [hrf] at hw
              cases res with
              | ok t =>
                dsimp only at hw
                by_cases ht : t = ""
                · rw [if_neg (by simp [ht])] at hw
                  exact ih first out hmem2 hw
                · rw [if_pos (by simp [ht])] at hw
                  obtain ⟨o2, ho2, rfl⟩ := Option.map_eq_some'.mp hw
                  exact contains_append_left _ _ _ (ih false o2 hmem2 ho2)
              | error e =>
                dsimp only at hw
                obtain ⟨o2, ho2, rfl⟩ := Option.map_eq_some'.mp hw
                exact contains_append_left _ _ _ (ih first o2 hmem2 ho2)
          | some kg =>
            rw [hkg] at hw
            dsimp only at hw
            by_cases hkg0 : (0:Int) ≤ kg
            · rw [if_pos hkg0] at hw
              by_cases hbit : bits.testBit kg.toNat = true
              · rw [if_pos hbit] at hw
                cases hsv : strOfVal limit g.val with
                | ok s =>
                  rw [hsv] at hw
                  dsimp only at hw
                  obtain ⟨o2, ho2, rfl⟩ := Option.map_eq_some'.mp hw
                  exact contains_append_left _ _ _ (ih false o2 hmem2 ho2)
                | error e =>
                  rw [hsv] at hw
                  dsimp only at hw
                  obtain ⟨o2, ho2, rfl⟩ := Option.map_eq_some'.mp hw
                  exact contains_append_left _ _ _ (ih first o2 hmem2 ho2)
              · rw [if_neg hbit] at hw
                exact ih first out hmem2 hw
            · rw [if_neg hkg0] at hw
              obtain ⟨o2, ho2, rfl⟩ := Option.map_eq_some'.mp hw
              exact contains_append_left _ _ _ (ih false o2 hmem2 ho2)

/-- **C3.** In the Variant A (Proto1) record decoder, every optional
field that the walk processes (not a bookkeeping field, with a storage
offset) whose `kHasBit_<name>` constant exists and is negative leaves
an explicit anomaly token `<name_: bad kHasBit value: k>` in the
rendered record — naming the field and the bad constant — whenever the
record renders at all; the field is never silently omitted. -/
theorem C3_negative_hasbit_anomaly (limit : Option Int) (msg : P1Msg) (f : PField)
    (k : Int) (hhas : msg.hasHasbits = true) (hmem : f ∈ msg.fields.drop 1)
    (hskip : ¬(f.name = "unknown_fields_" ∨ f.name = "hasbits_" ∨
      startsWithStr "_" f.name = true))
    (hbp : f.bitpos.isSome = true) (hk : f.kHasBit = some k) (hneg : k < 0)
    (out : String) (hout : p1ToString limit msg = some out) :
    ∃ pre post, out = pre ++ badHasBitToken f.name k ++ post := by
  unfold p1ToString at hout
  rw [hhas] at hout
  simp only [Bool.not_true, Bool.false_eq_true, if_false, ite_false] at hout
  obtain ⟨o2, ho2, rfl⟩ := Option.map_eq_some'.mp hout
  exact contains_append_left _ _ _
    (p1Walk_negative_token limit (assembleBits msg.hasbitsBytes) f k hskip hbp hk hneg
      (msg.fields.drop 1) true o2 hmem ho2)

/-- Witness for C3: the concrete Proto1 message with `kHasBit_a = -3`
renders the record `<<a_: bad kHasBit value: -3>>`, which contains the
anomaly token. -/
theorem C3_witness :
    ∃ pre post,
      "<<a_: bad kHasBit value: -3>>" = pre ++ badHasBitToken "a_" (-3) ++ post :=
  C3_negative_hasbit_anomaly none msgNeg exNegA (-3) rfl
    (List.mem_singleton.mpr rfl) (by decide) rfl rfl (by norm_num)
    "<<a_: bad kHasBit value: -3>>" rfl

/-- **C1, counterexample.** In `msgC1` the marker constants
`kFooFieldNumber`/`kFoOFieldNumber` collide on the sort key `foo`, so
`sort_data_fields` reports duplicate index 1 — yet the only data field
has reconstructed bit index 0, the walk never reaches the duplicate
index, and the record renders `"<a:1>"` with no terminal
`remaining fields are unavailable` marker at all (shown by length:
the output is shorter than the marker).  The claim that a detected
duplicate always yields exactly one terminal marker is therefore
false. -/
theorem C1_counterexample :
    sortedPrintableFields msgC1.fields = some (false, some 1, [exA]) ∧
    p2ToString none msgC1 = some "<a:1>" ∧
    ∀ pre post : String, "<a:1>" ≠ pre ++ " remaining fields are unavailable>" ++ post := by
  refine ⟨rfl, rfl, ?_⟩
  intro pre post h
  have hlen := congrArg String.length h
  rw [String.length_append, String.length_append] at hlen
  have h1 : ("<a:1>" : String).length = 5 := rfl
  have h2 : (" remaining fields are unavailable>" : String).length = 34 := rfl
  rw [h1, h2] at hlen
  omega

/-- Prepending one chunk preserves an `ends with marker`
decomposition. -/
theorem exists_pre_chunk (chunk rest marker : String)
    (h : ∃ pre, rest = pre ++ marker) :
    ∃ pre, chunk ++ rest = pre ++ marker := by
  obtain ⟨pre, rfl⟩ := h
  exact ⟨chunk ++ pre, by rw [String.append_assoc]⟩

/-- When the duplicate index lies within the sorted data fields, the
Proto2 field walk always ends in the terminal unavailable marker. -/
theorem p2Walk_marker (limit : Option Int) (bits : Nat) (d : Nat) :
    ∀ (fs : List PField) (kBit : Nat) (first : Bool) (out : String),
      kBit ≤ d → d < kBit + fs.length →
      p2Walk limit bits (some d) fs kBit first = some out →
      ∃ pre, out = pre ++ " remaining fields are unavailable>" := by
  intro fs
  induction fs with
  | nil =>
    intro kBit first out h1 h2
    simp at h2
    omega
  | cons g gs ih =>
    intro kBit first out h1 h2 hw
    by_cases hd : d ≤ kBit
    · simp only [p2Walk] at hw
      rw [if_pos (by simpa using hd)] at hw
      refine ⟨"", ?_⟩
      have : out = " remaining fields are unavailable>" := (Option.some.inj hw).symm
      rw [this]
      simp
    · have hlt : kBit < d := by omega
      have h1' : kBit + 1 ≤ d := by omega
      have h2' : d < kBit + 1 + gs.length := by
        simp only [List.length_cons] at h2
        omega
      simp only [p2Walk] at hw
      rw [if_neg (by simpa using hd)] at hw
      by_cases hbit : bits.testBit kBit = true
      · rw [if_pos hbit] at hw
        cases hsv : strOfVal limit g.val with
        | ok s =>
          rw [hsv] at hw
          dsimp only at hw
          obtain ⟨o2, ho2, rfl⟩ := Option.map_eq_some'.mp hw
          obtain ⟨pre2, rfl⟩ := ih (kBit + 1) false o2 h1' h2' ho2
          repeat first | exact ⟨pre2, rfl⟩ | apply exists_pre_chunk
        | error e =>
          rw [hsv] at hw
          dsimp only at hw
          obtain ⟨o2, ho2, rfl⟩ := Option.map_eq_some'.mp hw
          obtain ⟨pre2, rfl⟩ := ih (kBit + 1) first o2 h1' h2' ho2
          repeat first | exact ⟨pre2, rfl⟩ | apply exists_pre_chunk
      · rw [if_neg hbit] at hw
        by_cases hrep : isRepeatedTag g = true
        · rw [if_pos hrep] at hw
          cases hrf : repeatedField limit g with
          | none =>
            rw [hrf] at hw
            exact absurd hw (by simp)
          | some res =>
            rw [hrf] at hw
            cases res with
            | ok t =>
              dsimp only at hw
              by_cases ht : t = ""
              · rw [if_neg (by simp [ht])] at hw
                exact ih (kBit + 1) first out h1' h2' hw
              · rw [if_pos (by simp [ht])] at hw
                obtain ⟨o2, ho2, rfl⟩ := Option.map_eq_some'.mp hw
                obtain ⟨pre2, rfl⟩ := ih (kBit + 1) false o2 h1' h2' ho2
                repeat first | exact ⟨pre2, rfl⟩ | apply exists_pre_chunk
            | error e =>
              dsimp only at hw
              obtain ⟨o2, ho2, rfl⟩ := Option.map_eq_some'.mp hw
              obtain ⟨pre2, rfl⟩ := ih (kBit + 1) first o2 h1' h2' ho2
              repeat first | exact ⟨pre2, rfl⟩ | apply exists_pre_chunk
        · rw [if_neg hrep] at hw
          exact ih (kBit + 1) first out h1' h2' hw

/-- The Proto2 field walk under a duplicate index `d` depends only on
the fields strictly before index `d`: two sorted field lists agreeing
up to the duplicate index (both long enough to reach it) walk to the
same output. -/
theorem p2Walk_take_invariant (limit : Option Int) (bits : Nat) (d : Nat) :
    ∀ (fs1 fs2 : List PField) (kBit : Nat) (first : Bool),
      kBit ≤ d →
      fs1.take (d - kBit) = fs2.take (d - kBit) →
      d < kBit + fs1.length → d < kBit + fs2.length →
      p2Walk limit bits (some d) fs1 kBit first =
        p2Walk limit bits (some d) fs2 kBit first := by
  intro fs1
  induction fs1 with
  | nil =>
    intro fs2 kBit first hle _ h1 _
    simp at h1
    omega
  | cons g gs ih =>
    intro fs2 kBit first hle htake h1 h2
    cases fs2 with
    | nil =>
      simp at h2
      omega
    | cons g2 gs2 =>
      by_cases hd : d ≤ kBit
      · simp only [p2Walk]
        rw [if_pos (by simpa using hd), if_pos (by simpa using hd)]
      · have hn : d - kBit = (d - (kBit + 1)) + 1 := by omega
        rw [hn] at htake
        simp only [List.take_succ_cons, List.cons.injEq] at htake
        obtain ⟨rfl, htake2⟩ := htake
        have hrec : ∀ b : Bool,
            p2Walk limit bits (some d) gs (kBit + 1) b =
              p2Walk limit bits (some d) gs2 (kBit + 1) b := by
          intro b
          refine ih gs2 (kBit + 1) b (by omega) htake2 ?_ ?_
          · simp only [List.length_cons] at h1; omega
          · simp only [List.length_cons] at h2; omega
        simp only [p2Walk, hrec]

/-- **C1, amended.** In the Variant B record decoder, when
`sort_data_fields` reports a duplicate sort key with first-occurrence
index `d` and `d` lies within the sorted data fields (`d <` their
number), every rendered output ends in exactly the single terminal
`remaining fields are unavailable>` marker, and the output depends
only on the data fields with bit index before `d` — fields at or after
the collision index are never rendered individually.  (When `d` is at
or beyond the number of data fields — the duplicate comes from marker
constants without matching data fields — the code renders all fields
normally and emits no marker, as the counterexample shows.) -/
theorem C1_dup_truncation (limit : Option Int) (msg : P2Msg) (ext : Bool) (d : Nat)
    (flds : List PField) (hhas : msg.hasHasBits = true)
    (hspf : sortedPrintableFields msg.fields = some (ext, some d, flds))
    (hd : d < flds.length) :
    (∀ out, p2ToString limit msg = some out →
      ∃ pre, out = pre ++ " remaining fields are unavailable>") ∧
    (∀ (msg2 : P2Msg) (flds2 : List PField),
      msg2.hasHasBits = true →
      sortedPrintableFields msg2.fields = some (ext, some d, flds2) →
      msg2.hasBits = msg.hasBits → msg2.extCount = msg.extCount →
      flds2.take d = flds.take d → d < flds2.length →
      p2ToString limit msg2 = p2ToString limit msg) := by
  constructor
  · intro out hout
    unfold p2ToString at hout
    rw [hhas] at hout
    simp only [Bool.not_true, Bool.false_eq_true, if_false, ite_false] at hout
    rw [hspf] at hout
    dsimp only at hout
    obtain ⟨o2, ho2, rfl⟩ := Option.map_eq_some'.mp hout
    obtain ⟨pre2, rfl⟩ := p2Walk_marker limit msg.hasBits d flds 0 true o2
      (Nat.zero_le d) (by omega) ho2
    repeat first | exact ⟨pre2, rfl⟩ | apply exists_pre_chunk
  · intro msg2 flds2 hhas2 hspf2 hbits hcnt htake hd2
    unfold p2ToString
    rw [hhas, hhas2]
    simp only [Bool.not_true, Bool.false_eq_true, if_false, ite_false]
    rw [hspf, hspf2, hbits, hcnt]
    dsimp only
    rw [p2Walk_take_invariant limit msg.hasBits d flds2 flds 0 true (Nat.zero_le d)
      (by simpa using htake) (by omega) (by omega)]

/-- Witness for the amended C1: in `msgDup` the two data fields
collide with duplicate index 0, which is within the two data fields,
and the theorem yields the terminal marker decomposition of the
rendered output `"< remaining fields are unavailable>"`. -/
theorem C1_witness :
    ∃ pre, "< remaining fields are unavailable>" =
      pre ++ " remaining fields are unavailable>" :=
  (C1_dup_truncation none msgDup false 0 [exFooBar, exFoObar] rfl rfl
    (by norm_num)).1 "< remaining fields are unavailable>" rfl

/-- Unfolding equation for the bucket scan. -/
theorem findNonempty_eq {α : Type _} (bs : List (List α)) (b : Nat) :
    findNonempty bs b =
      if h : b < bs.length then
        (if (bs.get ⟨b, h⟩).isEmpty = true then findNonempty bs (b + 1) else b)
      else b := by
  unfold findNonempty
  by_cases h : b < bs.length
  · rw [dif_pos h, List.drop_eq_get_cons h]
    show b + findNonemptyAux (bs.get ⟨b, h⟩ :: bs.drop (b + 1)) = _
    simp only [findNonemptyAux]
    by_cases he : (bs.get ⟨b, h⟩).isEmpty = true
    · rw [if_pos he, if_pos he]
      omega
    · rw [if_neg he, if_neg he]
      omega
  · rw [dif_neg h, List.drop_eq_nil_of_le (by omega)]
    simp [findNonemptyAux]

/-- A bucket strictly before the scan result is empty. -/
theorem findNonempty_lt_self {α : Type _} (bs : List (List α)) (b : Nat)
    (h : b < bs.length) (hlt : b < findNonempty bs b) : bs.get ⟨b, h⟩ = [] := by
  rw [findNonempty_eq, dif_pos h] at hlt
  by_cases he : (bs.get ⟨b, h⟩).isEmpty = true
  · exact List.isEmpty_iff.mp he
  · rw [if_neg he] at hlt
    omega

/-- The bucket scan lands inside the array or exactly at its end,
skips only empty buckets (so the partial length sums and the flattened
suffix are unchanged), and lands on a non-empty bucket when inside the
array. -/
theorem findNonempty_spec {α : Type _} (bs : List (List α)) :
    ∀ (k b : Nat), bs.length - b ≤ k → b ≤ bs.length →
      findNonempty bs b ≤ bs.length ∧
      ((bs.take (findNonempty bs b)).map List.length).sum =
        ((bs.take b).map List.length).sum ∧
      (bs.drop b).flatten = (bs.drop (findNonempty bs b)).flatten ∧
      (∀ h2 : findNonempty bs b < bs.length,
        (bs.get ⟨findNonempty bs b, h2⟩).isEmpty = false) := by
  intro k
  induction k with
  | zero =>
    intro b hk hb
    have hbe : ¬ b < bs.length := by omega
    rw [findNonempty_eq, dif_neg hbe]
    exact ⟨hb, rfl, rfl, fun h2 => absurd h2 hbe⟩
  | succ k ih =>
    intro b hk hb
    rw [findNonempty_eq]
    by_cases h : b < bs.length
    · rw [dif_pos h]
      by_cases he : (bs.get ⟨b, h⟩).isEmpty = true
      · rw [if_pos he]
        have hnil : bs.get ⟨b, h⟩ = [] := List.isEmpty_iff.mp he
        obtain ⟨IH1, IH2, IH3, IH4⟩ := ih (b + 1) (by omega) (by omega)
        refine ⟨IH1, ?_, ?_, IH4⟩
        · rw [IH2, List.take_succ]
          have hgb : bs[b] = [] := by
            simpa [List.get_eq_getElem] using hnil
          have hg : bs[b]? = some [] := by
            rw [List.getElem?_eq_getElem h, hgb]
          rw [hg]
          simp
        · rw [← IH3, List.drop_eq_get_cons h, List.flatten_cons, hnil,
            List.nil_append]
      · rw [if_neg he]
        exact ⟨le_of_lt h, rfl, rfl, fun _ => by simpa using he⟩
    · rw [dif_neg h]
      exact ⟨hb, rfl, rfl, fun h2 => absurd h2 h⟩

/-- Decomposition of the flattened table at the position addressed by
a bucket index and an in-chain offset. -/
theorem flatten_drop_decomp {α : Type _} (bs : List (List α)) (b : Nat)
    (h : b < bs.length) (lp : Nat) (hlp : lp ≤ (bs.get ⟨b, h⟩).length) :
    bs.flatten.drop (((bs.take b).map List.length).sum + lp) =
      (bs.get ⟨b, h⟩).drop lp ++ (bs.drop (b + 1)).flatten := by
  have key : bs.flatten = (bs.take b).flatten ++ (bs.drop b).flatten := by
    rw [← List.flatten_append, List.take_append_drop]
  have hlen : ((bs.take b).map List.length).sum = (bs.take b).flatten.length :=
    (List.length_flatten _).symm
  rw [key, hlen, ← List.drop_drop, List.drop_left, List.drop_eq_get_cons h,
    List.flatten_cons, List.drop_append_of_le_length hlp]

/-- Partial length sum through bucket `j + 1`. -/
theorem sum_take_succ {α : Type _} (bs : List (List α)) (j : Nat) (h : j < bs.length) :
    ((bs.take (j + 1)).map List.length).sum =
      ((bs.take j).map List.length).sum + (bs.getD j []).length := by
  have hg : bs[j]? = some (bs.getD j []) := by
    rw [List.getElem?_eq_getElem h]
    congr 1
    rw [List.getD_eq_get bs [] h, List.get_eq_getElem]
  rw [List.take_succ, hg]
  simp

/-- Dropping a partial length sum from the flattened table leaves the
flattened bucket suffix. -/
theorem flatten_drop_sum {α : Type _} (bs : List (List α)) (b : Nat) :
    bs.flatten.drop (((bs.take b).map List.length).sum) = (bs.drop b).flatten := by
  have key : bs.flatten = (bs.take b).flatten ++ (bs.drop b).flatten := by
    rw [← List.flatten_append, List.take_append_drop]
  have hlen : ((bs.take b).map List.length).sum = (bs.take b).flatten.length :=
    (List.length_flatten _).symm
  rw [key, hlen, List.drop_left]

/-- One step of `_HashTableIterator.next` from any state satisfying
the position invariant (the committed count `c` addresses bucket `b`
at in-chain offset `lp`): the step refuses once the declared count is
reached, refuses (exhausting buckets) when the flattened table has no
element left, and otherwise yields exactly the next element of the
flattened table, re-establishing the invariant. -/
theorem htNext_spec {α : Type _} (bs : List (List α)) (N : Nat) :
    ∀ (k c b lp : Nat), bs.length - b ≤ k → b ≤ bs.length →
      lp ≤ (bs.getD b []).length →
      c = ((bs.take b).map List.length).sum + lp →
      (N ≤ c → htNext bs N ⟨c, b, lp⟩ = none) ∧
      (c < N → bs.flatten.drop c = [] → htNext bs N ⟨c, b, lp⟩ = none) ∧
      (∀ x xs, c < N → bs.flatten.drop c = x :: xs →
        ∃ b2 lp2, htNext bs N ⟨c, b, lp⟩ = some (x, ⟨c + 1, b2, lp2⟩) ∧
          b2 ≤ bs.length ∧ lp2 ≤ (bs.getD b2 []).length ∧
          c + 1 = ((bs.take b2).map List.length).sum + lp2) := by
  intro k
  induction k with
  | zero =>
    intro c b lp hk hb hlp hc
    have hbe : b = bs.length := by omega
    subst hbe
    have hlp0 : lp = 0 := by
      have hd : bs.getD bs.length [] = [] := by
        rw [List.getD_eq_default]
        omega
      rw [hd] at hlp
      simpa using hlp
    have hc2 : c = bs.flatten.length := by
      rw [List.length_flatten, hc, hlp0, List.take_length]
      omega
    have hstop : htNext bs N ⟨c, bs.length, lp⟩ = none := by
      unfold htNext
      rw [if_pos (Or.inr (le_refl _))]
    refine ⟨fun _ => hstop, fun _ _ => hstop, ?_⟩
    intro x xs _ hxs
    rw [List.drop_eq_nil_of_le (by omega)] at hxs
    cases hxs
  | succ k ih =>
    intro c b lp hk hb hlp hc
    by_cases hblen : bs.length ≤ b
    · have hbe : b = bs.length := by omega
      subst hbe
      have hlp0 : lp = 0 := by
        have hd : bs.getD bs.length [] = [] := by
          rw [List.getD_eq_default]
          omega
        rw [hd] at hlp
        simpa using hlp
      have hc2 : c = bs.flatten.length := by
        rw [List.length_flatten, hc, hlp0, List.take_length]
        omega
      have hstop : htNext bs N ⟨c, bs.length, lp⟩ = none := by
        unfold htNext
        rw [if_pos (Or.inr (le_refl _))]
      refine ⟨fun _ => hstop, fun _ _ => hstop, ?_⟩
      intro x xs _ hxs
      rw [List.drop_eq_nil_of_le (by omega)] at hxs
      cases hxs
    · push_neg at hblen
      have hge : b ≤ findNonempty bs b := Nat.le_add_right _ _
      obtain ⟨F1, F2, F3, F4⟩ := findNonempty_spec bs (bs.length - b) b (le_refl _)
        (le_of_lt hblen)
      have hlpz : b < findNonempty bs b → lp = 0 := by
        intro hlt
        have hnil := findNonempty_lt_self bs b hblen hlt
        have hd : bs.getD b [] = [] := by
          rw [List.getD_eq_get bs [] hblen, hnil]
        rw [hd] at hlp
        simpa using hlp
      have hfacts : ∀ _ : findNonempty bs b < bs.length,
          c = ((bs.take (findNonempty bs b)).map List.length).sum + lp ∧
          lp ≤ (bs.getD (findNonempty bs b) []).length ∧
          bs.flatten.drop c =
            (bs.getD (findNonempty bs b) []).drop lp ++
              (bs.drop (findNonempty bs b + 1)).flatten := by
        intro hfne
        have hcons : bs.drop (findNonempty bs b) =
            bs.getD (findNonempty bs b) [] :: bs.drop (findNonempty bs b + 1) := by
          rw [List.drop_eq_get_cons hfne, List.getD_eq_get bs [] hfne]
        rcases Nat.lt_or_ge b (findNonempty bs b) with hlt | hge2
        · have hlp0 := hlpz hlt
          subst hlp0
          have hc3 : c = ((bs.take (findNonempty bs b)).map List.length).sum + 0 := by
            rw [F2, Nat.add_zero]
            rw [hc, Nat.add_zero]
          refine ⟨hc3, Nat.zero_le _, ?_⟩
          rw [hc3, Nat.add_zero, flatten_drop_sum, hcons, List.flatten_cons,
            List.drop_zero]
        · have hbeq : findNonempty bs b = b := by omega
          rw [hbeq]
          have hlp2 : lp ≤ (bs.get ⟨b, hblen⟩).length := by
            rwa [List.getD_eq_get bs [] hblen] at hlp
          refine ⟨hc, hlp, ?_⟩
          rw [hc, flatten_drop_decomp bs b hblen lp hlp2, List.getD_eq_get bs [] hblen]
      have hempty : bs.length ≤ findNonempty bs b → bs.flatten.drop c = [] := by
        intro hfne
        have hlt : b < findNonempty bs b := by omega
        have hlp0 := hlpz hlt
        subst hlp0
        rw [hc, Nat.add_zero, flatten_drop_sum, F3]
        have hfe : findNonempty bs b = bs.length := by omega
        rw [hfe, List.drop_length]
        rfl
      refine ⟨?_, ?_, ?_⟩
      · intro hN
        unfold htNext
        rw [if_pos (Or.inl hN)]
      · intro hcN hflat
        unfold htNext
        dsimp only
        rw [if_neg (not_or.mpr ⟨by omega, by omega⟩)]
        by_cases hfne : bs.length ≤ findNonempty bs b
        · rw [dif_pos hfne]
        · rw [dif_neg hfne]
          push_neg at hfne
          obtain ⟨G1, G2, G3⟩ := hfacts hfne
          split
          · -- the chain still has an element: contradicts the empty suffix
            rename_i x tail heq
            exfalso
            have heqD : (bs.getD (findNonempty bs b) []).drop lp = x :: tail := by
              rw [List.getD_eq_get bs [] hfne]
              exact heq
            rw [heqD, hflat] at G3
            cases G3
          · rename_i heq
            have heqD : (bs.getD (findNonempty bs b) []).drop lp = [] := by
              rw [List.getD_eq_get bs [] hfne]
              exact heq
            have hlpfull : (bs.getD (findNonempty bs b) []).length ≤ lp := by
              have hlen := congrArg List.length heqD
              rw [List.length_drop, List.length_nil] at hlen
              omega
            have hcnew : c =
                ((bs.take (findNonempty bs b + 1)).map List.length).sum + 0 := by
              rw [sum_take_succ bs (findNonempty bs b) hfne, Nat.add_zero, G1]
              omega
            exact (ih c (findNonempty bs b + 1) 0 (by omega) (by omega)
              (Nat.zero_le _) hcnew).2.1 hcN hflat
      · intro x xs hcN hflat
        unfold htNext
        dsimp only
        rw [if_neg (not_or.mpr ⟨by omega, by omega⟩)]
        by_cases hfne : bs.length ≤ findNonempty bs b
        · exfalso
          rw [hempty hfne] at hflat
          cases hflat
        · rw [dif_neg hfne]
          push_neg at hfne
          obtain ⟨G1, G2, G3⟩ := hfacts hfne
          split
          · rename_i y tail heq
            have heqD : (bs.getD (findNonempty bs b) []).drop lp = y :: tail := by
              rw [List.getD_eq_get bs [] hfne]
              exact heq
            have hxy : y = x := by
              rw [heqD, hflat, List.cons_append] at G3
              exact (List.cons.inj G3.symm).1
            have hlt : lp < (bs.getD (findNonempty bs b) []).length := by
              have hlen := congrArg List.length heqD
              rw [List.length_drop, List.length_cons] at hlen
              omega
            refine ⟨findNonempty bs b, lp + 1, ?_, le_of_lt hfne, by omega, ?_⟩
            · rw [hxy]
            · rw [G1]
              omega
          · rename_i heq
            have heqD : (bs.getD (findNonempty bs b) []).drop lp = [] := by
              rw [List.getD_eq_get bs [] hfne]
              exact heq
            have hlpfull : (bs.getD (findNonempty bs b) []).length ≤ lp := by
              have hlen := congrArg List.length heqD
              rw [List.length_drop, List.length_nil] at hlen
              omega
            have hcnew : c =
                ((bs.take (findNonempty bs b + 1)).map List.length).sum + 0 := by
              rw [sum_take_succ bs (findNonempty bs b) hfne, Nat.add_zero, G1]
              omega
            exact (ih c (findNonempty bs b + 1) 0 (by omega) (by omega)
              (Nat.zero_le _) hcnew).2.2 x xs hcN hflat

/-- Running `_HashTableIterator` from any invariant state yields the
remaining flattened elements, cut off by both the remaining declared
count and the requested number of pulls. -/
theorem htNext_run {α : Type _} (bs : List (List α)) (N : Nat) :
    ∀ (m c b lp : Nat), b ≤ bs.length → lp ≤ (bs.getD b []).length →
      c = ((bs.take b).map List.length).sum + lp →
      iterate (htNext bs N) m ⟨c, b, lp⟩ = (bs.flatten.drop c).take (min m (N - c)) := by
  intro m
  induction m with
  | zero =>
    intro c b lp _ _ _
    simp [iterate]
  | succ m ih =>
    intro c b lp hb hlp hc
    obtain ⟨S1, S2, S3⟩ := htNext_spec bs N bs.length c b lp (by omega) hb hlp hc
    by_cases hN : N ≤ c
    · simp only [iterate, S1 hN]
      have hz : N - c = 0 := by omega
      rw [hz]
      simp
    · push_neg at hN
      cases hflat : bs.flatten.drop c with
      | nil =>
        simp only [iterate, S2 hN hflat]
        simp
      | cons x xs =>
        obtain ⟨b2, lp2, hnext, hb2, hlp2, hc2⟩ := S3 x xs hN hflat
        simp only [iterate, hnext]
        rw [ih (c + 1) b2 lp2 hb2 hlp2 hc2]
        have hdrop1 : bs.flatten.drop (c + 1) = xs := by
          have ht := congrArg List.tail hflat
          rw [List.tail_drop] at ht
          simpa using ht
        rw [hdrop1]
        have hmin : min (m + 1) (N - c) = min m (N - (c + 1)) + 1 := by omega
        rw [hmin, List.take_succ_cons]

/-- A chain head below the array end. -/
theorem bucketHead_lt {α : Type _} (bs : List (List α)) (i : Nat) (h : i < bs.length) :
    bucketHead bs i = .chain (bs.getD i []) := by
  unfold bucketHead
  rw [dif_pos h, List.getD_eq_get bs [] h]

/-- The terminal sentinel at or past the array end. -/
theorem bucketHead_ge {α : Type _} (bs : List (List α)) (i : Nat) (h : bs.length ≤ i) :
    bucketHead bs i = Tr1Node.terminal := by
  unfold bucketHead
  rw [dif_neg (by omega)]

/-- The cursor advance does nothing on a non-null cursor. -/
theorem tr1SkipAux_stop {α : Type _} (bs : List (List α)) (fuel b : Nat)
    (node : Tr1Node α) (h : node ≠ .chain []) :
    tr1SkipAux bs fuel b node = (b, node) := by
  cases fuel with
  | zero => rfl
  | succ f =>
    cases node with
    | chain rest =>
      cases rest with
      | nil => exact absurd rfl h
      | cons x xs => rfl
    | terminal => rfl
    | done => rfl

/-- From a null cursor in bucket `b`, the advance loop lands on the
first non-empty bucket after `b` (or on the terminal sentinel), given
enough fuel. -/
theorem tr1SkipAux_nil {α : Type _} (bs : List (List α)) :
    ∀ (fuel b : Nat), bs.length - b < fuel → b < bs.length →
      tr1SkipAux bs fuel b (.chain []) =
        (findNonempty bs (b + 1), bucketHead bs (findNonempty bs (b + 1))) := by
  intro fuel
  induction fuel with
  | zero =>
    intro b h1 h2
    omega
  | succ f ih =>
    intro b h1 h2
    show tr1SkipAux bs f (b + 1) (bucketHead bs (b + 1)) = _
    by_cases hb1 : b + 1 < bs.length
    · rw [bucketHead_lt bs (b + 1) hb1]
      by_cases hne : bs.getD (b + 1) [] = []
      · rw [hne, ih (b + 1) (by omega) hb1]
        have hfeq : findNonempty bs (b + 1) = findNonempty bs (b + 2) := by
          rw [findNonempty_eq, dif_pos hb1,
            if_pos (by rw [← List.getD_eq_get bs [] hb1, hne]; rfl)]
        rw [hfeq]
      · rw [tr1SkipAux_stop bs f (b + 1) _ (by simpa using hne)]
        have hfeq : findNonempty bs (b + 1) = b + 1 := by
          rw [findNonempty_eq, dif_pos hb1,
            if_neg (by rw [← List.getD_eq_get bs [] hb1]; simpa using hne)]
        rw [hfeq, bucketHead_lt bs (b + 1) hb1]
    · rw [bucketHead_ge bs (b + 1) (by omega)]
      rw [tr1SkipAux_stop bs f (b + 1) _ (by simp)]
      have hfeq : findNonempty bs (b + 1) = b + 1 := by
        rw [findNonempty_eq, dif_neg hb1]
      rw [hfeq, bucketHead_ge bs (b + 1) (by omega)]

/-- A finished cursor never yields again. -/
theorem iterate_tr1_done {α : Type _} (bs : List (List α)) (n m c b : Nat) :
    iterate (tr1Next bs n) m ⟨c, b, Tr1Node.done⟩ = [] := by
  cases m <;> simp [iterate, tr1Next]

/-- Running `Tr1HashtableIterator` from any mid-iteration state (the
cursor points at the suffix `rest` of bucket `b`, `j` elements already
yielded, the committed count leading by one) yields the remaining
flattened elements, provided the declared count matches the stored
total. -/
theorem tr1_run {α : Type _} (bs : List (List α)) (n : Nat)
    (hn : n = (bs.map List.length).sum) :
    ∀ (m j b : Nat) (rest : List α),
      j < n → b < bs.length →
      bs.flatten.drop j = rest ++ (bs.drop (b + 1)).flatten → rest ≠ [] →
      iterate (tr1Next bs n) m ⟨j + 1, b, .chain rest⟩ = (bs.flatten.drop j).take m := by
  have hlenfl : bs.flatten.length = n := by rw [List.length_flatten, hn]
  intro m
  induction m with
  | zero =>
    intro j b rest _ _ _ _
    simp [iterate]
  | succ m ih =>
    intro j b rest hj hb hdec hne
    cases rest with
    | nil => exact absurd rfl hne
    | cons x w =>
      have hstep : tr1Next bs n ⟨j + 1, b, .chain (x :: w)⟩ =
          some (x, tr1Update bs n ⟨j + 1, b, .chain w⟩) := rfl
      simp only [iterate, hstep]
      have hdrop1 : bs.flatten.drop (j + 1) = w ++ (bs.drop (b + 1)).flatten := by
        have ht := congrArg List.tail hdec
        rw [List.tail_drop] at ht
        simpa using ht
      have hconsj : bs.flatten.drop j = x :: bs.flatten.drop (j + 1) := by
        rw [hdec, hdrop1, List.cons_append]
      rw [hconsj, List.take_succ_cons]
      congr 1
      unfold tr1Update
      by_cases hw : w = []
      · subst hw
        have hsk : tr1Skip bs b (.chain ([] : List α)) =
            (findNonempty bs (b + 1), bucketHead bs (findNonempty bs (b + 1))) :=
          tr1SkipAux_nil bs (bs.length + 1) b (by omega) hb
        rw [hsk]
        by_cases hjn : j + 1 = n
        · rw [if_pos hjn]
          rw [iterate_tr1_done]
          have hnil : bs.flatten.drop (j + 1) = [] :=
            List.drop_eq_nil_of_le (by omega)
          rw [hnil]
          simp
        · rw [if_neg hjn]
          have hjn2 : j + 1 < n := by omega
          obtain ⟨F1, F2, F3, F4⟩ := findNonempty_spec bs (bs.length - (b + 1))
            (b + 1) (le_refl _) (by omega)
          by_cases hfb : findNonempty bs (b + 1) < bs.length
          · rw [bucketHead_lt bs _ hfb]
            have hcons : bs.drop (findNonempty bs (b + 1)) =
                bs.getD (findNonempty bs (b + 1)) [] ::
                  bs.drop (findNonempty bs (b + 1) + 1) := by
              rw [List.drop_eq_get_cons hfb, List.getD_eq_get bs [] hfb]
            have hdec2 : bs.flatten.drop (j + 1) =
                bs.getD (findNonempty bs (b + 1)) [] ++
                  (bs.drop (findNonempty bs (b + 1) + 1)).flatten := by
              rw [hdrop1, List.nil_append, F3, hcons, List.flatten_cons]
            have hnonnil : bs.getD (findNonempty bs (b + 1)) [] ≠ [] := by
              rw [List.getD_eq_get bs [] hfb]
              intro hx
              have := F4 hfb
              rw [hx] at this
              simp at this
            exact ih (j + 1) (findNonempty bs (b + 1)) _ hjn2 hfb hdec2 hnonnil
          · exfalso
            have hfe : findNonempty bs (b + 1) = bs.length := by omega
            have hnil : bs.flatten.drop (j + 1) = [] := by
              rw [hdrop1, List.nil_append, F3, hfe, List.drop_length]
              rfl
            have := congrArg List.length hnil
            rw [List.length_drop] at this
            simp at this
            omega
      · have hsk : tr1Skip bs b (.chain w) = (b, .chain w) :=
          tr1SkipAux_stop bs _ b _ (by simpa using hw)
        rw [hsk]
        have hjn2 : j + 1 < n := by
          have hlend := congrArg List.length hdrop1
          rw [List.length_drop, List.length_append] at hlend
          have hwpos : 1 ≤ w.length := List.length_pos.mpr hw
          omega
        rw [if_neg (by omega : ¬ j + 1 = n)]
        exact ih (j + 1) b w hjn2 hb hdrop1 hw

/-- **C6.** Hashed-container iteration yields exactly the stored
elements, each exactly once, in both bucket-layout families.  For the
chained-bucket family (`_HashTableIterator`), iteration from the
initial state yields the flattened bucket contents cut off at the
declared count `N` — so with `N` equal to the stored total it yields
exactly the `N` stored elements once each, and with a larger declared
count it stops early once all buckets are exhausted.  For the
bucket-with-terminal family (`Tr1HashtableIterator`), when the
declared count equals the stored total, iteration yields exactly the
flattened bucket contents.  Both statements hold for every bucket
arrangement, including all elements colliding into a single bucket. -/
theorem C6_hash_iteration {α : Type _} (bs : List (List α)) :
    (∀ N m : Nat, iterate (htNext bs N) m ⟨0, 0, 0⟩ = bs.flatten.take (min m N)) ∧
    (∀ N : Nat, N = (bs.map List.length).sum →
      ∀ m : Nat, iterate (tr1Next bs N) m (tr1Init bs N) = bs.flatten.take m) := by
  constructor
  · intro N m
    have h := htNext_run bs N m 0 0 0 (Nat.zero_le _) (Nat.zero_le _) (by simp)
    simpa using h
  · intro N hN m
    have hlenfl : bs.flatten.length = N := by rw [List.length_flatten, hN]
    unfold tr1Init
    by_cases hz : N = 0
    · rw [if_pos hz, iterate_tr1_done]
      have hnil : bs.flatten = [] := by
        have : bs.flatten.length = 0 := by omega
        exact List.length_eq_zero.mp this
      rw [hnil]
      simp
    · rw [if_neg hz]
      have hlen0 : 0 < bs.length := by
        by_contra h0
        push_neg at h0
        have hbsnil : bs = [] := List.length_eq_zero.mp (by omega)
        rw [hbsnil] at hN
        simp at hN
        exact hz hN
      rw [bucketHead_lt bs 0 hlen0]
      unfold tr1Update
      dsimp only
      rw [if_neg (fun h => hz h.symm)]
      by_cases hb0 : bs.getD 0 [] = []
      · rw [hb0]
        have hsk : tr1Skip bs 0 (.chain ([] : List α)) =
            (findNonempty bs 1, bucketHead bs (findNonempty bs 1)) :=
          tr1SkipAux_nil bs (bs.length + 1) 0 (by omega) hlen0
        rw [hsk]
        obtain ⟨F1, F2, F3, F4⟩ := findNonempty_spec bs (bs.length - 1) 1
          (le_refl _) (by omega)
        have hs1 : ((bs.take 1).map List.length).sum = 0 := by
          rw [show (1 : Nat) = 0 + 1 from rfl, sum_take_succ bs 0 hlen0, hb0]
          simp
        have h01 : bs.flatten = (bs.drop 1).flatten := by
          have hfd := flatten_drop_sum bs 1
          rw [hs1] at hfd
          simpa using hfd
        by_cases hfb : findNonempty bs 1 < bs.length
        · rw [bucketHead_lt bs _ hfb]
          have hcons : bs.drop (findNonempty bs 1) =
              bs.getD (findNonempty bs 1) [] :: bs.drop (findNonempty bs 1 + 1) := by
            rw [List.drop_eq_get_cons hfb, List.getD_eq_get bs [] hfb]
          have hdec : bs.flatten.drop 0 =
              bs.getD (findNonempty bs 1) [] ++
                (bs.drop (findNonempty bs 1 + 1)).flatten := by
            rw [List.drop_zero, h01, F3, hcons, List.flatten_cons]
          have hnonnil : bs.getD (findNonempty bs 1) [] ≠ [] := by
            rw [List.getD_eq_get bs [] hfb]
            intro hx
            have hh := F4 hfb
            rw [hx] at hh
            simp at hh
          have hr := tr1_run bs N hN m 0 (findNonempty bs 1) _ (by omega) hfb
            hdec hnonnil
          simpa using hr
        · exfalso
          have hfe : findNonempty bs 1 = bs.length := by omega
          have hnil : bs.flatten = [] := by
            rw [h01, F3, hfe, List.drop_length]
            rfl
          rw [hnil] at hlenfl
          simp at hlenfl
          omega
      · have hsk : tr1Skip bs 0 (.chain (bs.getD 0 [])) = (0, .chain (bs.getD 0 [])) :=
          tr1SkipAux_stop bs _ 0 _ (by simpa using hb0)
        rw [hsk]
        have hbs : bs = bs.getD 0 [] :: bs.drop 1 := by
          have h1 := List.drop_eq_get_cons (l := bs) hlen0
          rw [List.drop_zero] at h1
          rw [List.getD_eq_get bs [] hlen0]
          exact h1
        have hdec : bs.flatten.drop 0 = bs.getD 0 [] ++ (bs.drop (0 + 1)).flatten := by
          rw [List.drop_zero]
          conv_lhs => rw [hbs]
          rw [List.flatten_cons]
        have hr := tr1_run bs N hN m 0 0 _ (by omega) hlen0 hdec hb0
        simpa using hr

/-- Witness for C6: a table whose three elements all collide into one
bucket yields exactly those three elements, once each, in both
families. -/
theorem C6_witness :
    iterate (htNext [[1, 2, 3]] 3) 5 ⟨0, 0, 0⟩ = [1, 2, 3] ∧
    iterate (tr1Next [[1, 2, 3]] 3) 5 (tr1Init [[1, 2, 3]] 3) = [1, 2, 3] := by
  have h := C6_hash_iteration [[1, 2, 3]]
  constructor
  · have h1 := h.1 3 5
    rw [h1]
    decide
  · have h2 := h.2 3 (by decide) 5
    rw [h2]
    decide

/-- Subtree lookup along a concatenated path. -/
theorem subtreeAt_append {α : Type _} :
    ∀ (p q : TPath) (t : BTree α),
      subtreeAt t (p ++ q) = (subtreeAt t p).bind (fun s => subtreeAt s q) := by
  intro p
  induction p with
  | nil =>
    intro q t
    simp [subtreeAt]
  | cons d p ih =>
    intro q t
    cases t with
    | leaf => cases d <;> simp [subtreeAt]
    | node l v r => cases d <;> simp [subtreeAt, ih]

/-- A non-root path to a node subtree is strictly shorter than the
tree size budget: `p.length + s.size ≤ t.size` whenever `p` addresses
subtree `s`. -/
theorem subtreeAt_size_le {α : Type _} :
    ∀ (p : TPath) (t s : BTree α), subtreeAt t p = some s →
      p.length + s.size ≤ t.size := by
  intro p
  induction p with
  | nil =>
    intro t s h
    simp [subtreeAt] at h
    subst h
    simp
  | cons d p ih =>
    intro t s h
    cases t with
    | leaf => simp [subtreeAt] at h
    | node l v r =>
      cases d with
      | L =>
        have := ih l s h
        simp [BTree.size]
        omega
      | R =>
        have := ih r s h
        simp [BTree.size]
        omega

/-- The minimum path never exceeds the subtree size. -/
theorem minPath_length_le {α : Type _} :
    ∀ t : BTree α, (minPath t).length ≤ t.size := by
  intro t
  induction t with
  | leaf => simp [minPath, BTree.size]
  | node l v r ihl ihr =>
    cases l with
    | leaf => simp [minPath, BTree.size]
    | node a b c =>
      simp only [minPath, List.length_cons, BTree.size]
      have := ihl
      simp [BTree.size] at this ⊢
      omega

/-- The maximum path consists of right-child edges only. -/
theorem maxPath_replicate {α : Type _} :
    ∀ t : BTree α, ∃ k, maxPath t = List.replicate k Dir.R := by
  intro t
  induction t with
  | leaf => exact ⟨0, rfl⟩
  | node l v r ihl ihr =>
    cases r with
    | leaf => exact ⟨0, rfl⟩
    | node a b c =>
      obtain ⟨k, hk⟩ := ihr
      exact ⟨k + 1, by simp [maxPath, hk, List.replicate_succ]⟩

/-- The maximum path addresses a node with a leaf right child. -/
theorem subtreeAt_maxPath {α : Type _} :
    ∀ (l : BTree α) (v : α) (r : BTree α),
      ∃ a b, subtreeAt (BTree.node l v r) (maxPath (BTree.node l v r)) =
        some (BTree.node a b BTree.leaf) := by
  intro l v r
  induction r generalizing l v with
  | leaf => exact ⟨l, v, rfl⟩
  | node a b c iha ihc =>
    obtain ⟨x, y, hxy⟩ := ihc a b
    exact ⟨x, y, by simpa [maxPath, subtreeAt] using hxy⟩

/-- The parent link of a non-root node drops the last path edge. -/
theorem ptrParent_node {α : Type _} (t : BTree α) (p : TPath) (h : p ≠ []) :
    ptrParent t (.node p) = .node p.dropLast := by
  cases p with
  | nil => exact absurd rfl h
  | cons d q => rfl

/-- There are as many in-order paths as nodes. -/
theorem ip_length {α : Type _} : ∀ t : BTree α, (inorderPaths t).length = t.size := by
  intro t
  induction t with
  | leaf => rfl
  | node l v r ihl ihr =>
    simp only [inorderPaths, BTree.size, List.length_append, List.length_map,
      List.length_cons, List.length_nil, ihl, ihr]

/-- The first in-order path of a non-empty tree is its minimum path. -/
theorem ip_head {α : Type _} :
    ∀ t : BTree α, t ≠ BTree.leaf → (inorderPaths t).head? = some (minPath t) := by
  intro t
  induction t with
  | leaf => intro h; exact absurd rfl h
  | node l v r ihl ihr =>
    intro _
    cases l with
    | leaf => simp [inorderPaths, minPath]
    | node a b c =>
      have hl := ihl (by simp)
      cases hip : inorderPaths (BTree.node a b c) with
      | nil => rw [hip] at hl; cases hl
      | cons h0 tl =>
        rw [hip] at hl
        have hh : h0 = minPath (BTree.node a b c) := by
          simpa using hl
        conv_lhs => rw [inorderPaths, hip]
        rw [List.map_cons]
        simp [minPath, hh]

/-- The last in-order path of a non-empty tree is its maximum path. -/
theorem ip_getLast {α : Type _} :
    ∀ t : BTree α, t ≠ BTree.leaf → (inorderPaths t).getLast? = some (maxPath t) := by
  intro t
  induction t with
  | leaf => intro h; exact absurd rfl h
  | node l v r ihl ihr =>
    intro _
    cases r with
    | leaf =>
      conv_lhs => rw [inorderPaths]
      rw [show inorderPaths (BTree.leaf : BTree α) = [] from rfl, List.map_nil,
        List.append_nil, List.getLast?_concat]
      rfl
    | node a b c =>
      have hr := ihr (by simp)
      conv_lhs => rw [inorderPaths]
      rw [List.getLast?_append, List.getLast?_append, List.getLast?_map, hr]
      simp [maxPath]

/-- Every in-order path addresses a node. -/
theorem ip_mem_node {α : Type _} :
    ∀ (t : BTree α) (p : TPath), p ∈ inorderPaths t →
      ∃ a b c, subtreeAt t p = some (BTree.node a b c) := by
  intro t
  induction t with
  | leaf => intro p hp; cases hp
  | node l v r ihl ihr =>
    intro p hp
    simp only [inorderPaths, List.mem_append, List.mem_map,
      List.mem_singleton] at hp
    cases hp with
    | inl h12 =>
      cases h12 with
      | inl h1 =>
        obtain ⟨q, hq, hpq⟩ := h1
        subst hpq
        obtain ⟨a, b, c, habc⟩ := ihl q hq
        exact ⟨a, b, c, by simpa [subtreeAt] using habc⟩
      | inr hpe =>
        subst hpe
        exact ⟨l, v, r, rfl⟩
    | inr h3 =>
      obtain ⟨q, hq, hpq⟩ := h3
      subst hpq
      obtain ⟨a, b, c, habc⟩ := ihr q hq
      exact ⟨a, b, c, by simpa [subtreeAt] using habc⟩

/-- Reading the stored values along the in-order paths gives the
in-order value sequence. -/
theorem ip_values {α : Type _} :
    ∀ t : BTree α, (inorderPaths t).map (fun p => valueAt t (RPtr.node p)) =
      (BTree.inorder t).map some := by
  intro t
  induction t with
  | leaf => rfl
  | node l v r ihl ihr =>
    have hfl : ((fun p => valueAt (BTree.node l v r) (RPtr.node p)) ∘ (Dir.L :: ·)) =
        (fun p => valueAt l (RPtr.node p)) := by
      funext q
      rfl
    have hfr : ((fun p => valueAt (BTree.node l v r) (RPtr.node p)) ∘ (Dir.R :: ·)) =
        (fun p => valueAt r (RPtr.node p)) := by
      funext q
      rfl
    simp only [inorderPaths, BTree.inorder, List.map_append, List.map_map,
      List.map_cons, List.map_nil, hfl, hfr, ihl, ihr]
    simp [valueAt, subtreeAt]

/-- Unfolding equation for one step of the left descent. -/
theorem descendLeft_succ {α : Type _} (t : BTree α) (f : Nat) (n : RPtr) :
    descendLeft t (f + 1) n =
      match ptrLeft t n with
      | .null => n
      | l => descendLeft t f l := rfl

/-- Unfolding equation for one step of the ascent loop. -/
theorem ascendLoop_succ {α : Type _} (t : BTree α) (f : Nat) (n p : RPtr) :
    ascendLoop t (f + 1) n p =
      if n = ptrRight t p then ascendLoop t f p (ptrParent t p) else (n, p) := rfl

/-- With enough fuel, the left descent from a node lands on the
minimum of its subtree. -/
theorem descendLeft_min {α : Type _} (t : BTree α) :
    ∀ (s : BTree α) (p : TPath) (fuel : Nat),
      subtreeAt t p = some s → s ≠ BTree.leaf → (minPath s).length < fuel →
      descendLeft t fuel (RPtr.node p) = RPtr.node (p ++ minPath s) := by
  intro s
  induction s with
  | leaf => intro p fuel _ h _; exact absurd rfl h
  | node l v r ihl ihr =>
    intro p fuel hsub _ hfuel
    cases l with
    | leaf =>
      cases fuel with
      | zero => exact absurd hfuel (Nat.not_lt_zero _)
      | succ f =>
        have hsa : subtreeAt t (p ++ [Dir.L]) = some BTree.leaf := by
          rw [subtreeAt_append, hsub]; rfl
        have hleft : ptrLeft t (RPtr.node p) = RPtr.null := by
          simp [ptrLeft, childPtr, isNodeAt, hsa]
        rw [descendLeft_succ, hleft]
        simp [minPath]
    | node a b c =>
      cases fuel with
      | zero => exact absurd hfuel (Nat.not_lt_zero _)
      | succ f =>
        have hsa : subtreeAt t (p ++ [Dir.L]) = some (BTree.node a b c) := by
          rw [subtreeAt_append, hsub]; rfl
        have hleft : ptrLeft t (RPtr.node p) = RPtr.node (p ++ [Dir.L]) := by
          simp [ptrLeft, childPtr, isNodeAt, hsa]
        have hfuel2 : (minPath (BTree.node a b c)).length < f := by
          simp [minPath] at hfuel
          omega
        rw [descendLeft_succ, hleft]
        show descendLeft t f (RPtr.node (p ++ [Dir.L])) = _
        rw [ihl (p ++ [Dir.L]) f hsa (by simp) hfuel2]
        simp [minPath, List.append_assoc]

/-- With enough fuel, the ascent from a node reached by one left edge
followed by `k` right edges stops exactly at the left edge, returning
that node and its parent. -/
theorem ascendLoop_spec {α : Type _} (t : BTree α) :
    ∀ (k : Nat) (p₀ : TPath) (fuel : Nat) (s : BTree α),
      subtreeAt t (p₀ ++ Dir.L :: List.replicate k Dir.R) = some s → s ≠ BTree.leaf →
      k < fuel →
      ascendLoop t fuel (RPtr.node (p₀ ++ Dir.L :: List.replicate k Dir.R))
        (ptrParent t (RPtr.node (p₀ ++ Dir.L :: List.replicate k Dir.R))) =
      (RPtr.node (p₀ ++ [Dir.L]), RPtr.node p₀) := by
  intro k
  induction k with
  | zero =>
    intro p₀ fuel s hsub hs hk
    cases fuel with
    | zero => exact absurd hk (Nat.not_lt_zero _)
    | succ f =>
      simp only [List.replicate] at hsub ⊢
      have hpar : ptrParent t (RPtr.node (p₀ ++ [Dir.L])) = RPtr.node p₀ := by
        rw [ptrParent_node t _ (by simp)]
        simp
      rw [hpar, ascendLoop_succ]
      have hne : RPtr.node (p₀ ++ [Dir.L]) ≠ ptrRight t (RPtr.node p₀) := by
        simp only [ptrRight, childPtr]
        split
        · intro heq
          injection heq with h2
          have h3 := List.append_cancel_left h2
          simp at h3
        · intro heq
          exact RPtr.noConfusion heq
      rw [if_neg hne]
  | succ k ih =>
    intro p₀ fuel s hsub hs hk
    cases fuel with
    | zero => exact absurd hk (Nat.not_lt_zero _)
    | succ f =>
      have hsplit : p₀ ++ Dir.L :: List.replicate (k + 1) Dir.R =
          (p₀ ++ Dir.L :: List.replicate k Dir.R) ++ [Dir.R] := by
        rw [List.replicate_succ']
        simp
      rw [hsplit] at hsub ⊢
      have hpar : ptrParent t (RPtr.node ((p₀ ++ Dir.L :: List.replicate k Dir.R) ++ [Dir.R])) =
          RPtr.node (p₀ ++ Dir.L :: List.replicate k Dir.R) := by
        rw [ptrParent_node t _ (by simp)]
        rw [List.dropLast_concat]
      obtain ⟨sa, sb, sc, rfl⟩ : ∃ sa sb sc, s = BTree.node sa sb sc := by
        cases s with
        | leaf => exact absurd rfl hs
        | node sa sb sc => exact ⟨sa, sb, sc, rfl⟩
      obtain ⟨a2, b2, c2, hs2⟩ : ∃ a2 b2 c2,
          subtreeAt t (p₀ ++ Dir.L :: List.replicate k Dir.R) = some (BTree.node a2 b2 c2) := by
        rw [subtreeAt_append] at hsub
        cases hx : subtreeAt t (p₀ ++ Dir.L :: List.replicate k Dir.R) with
        | none => rw [hx] at hsub; simp at hsub
        | some s2 =>
          rw [hx] at hsub
          cases s2 with
          | leaf => simp [subtreeAt] at hsub
          | node a2 b2 c2 => exact ⟨a2, b2, c2, rfl⟩
      have hnode : isNodeAt t ((p₀ ++ Dir.L :: List.replicate k Dir.R) ++ [Dir.R]) = true := by
        unfold isNodeAt
        rw [hsub]
      have hcond : RPtr.node ((p₀ ++ Dir.L :: List.replicate k Dir.R) ++ [Dir.R]) =
          ptrRight t (RPtr.node (p₀ ++ Dir.L :: List.replicate k Dir.R)) := by
        show _ = childPtr t (p₀ ++ Dir.L :: List.replicate k Dir.R) Dir.R
        unfold childPtr
        rw [if_pos hnode]
      rw [hpar, ascendLoop_succ, if_pos hcond]
      exact ih p₀ f (BTree.node a2 b2 c2) hs2 (by simp) (by omega)

/-- The successor step follows the structural in-order adjacency: from
any node path, `rbStep` moves to the in-order-adjacent node path. -/
theorem rbStep_adj {α : Type _} (t : BTree α) (p q : TPath)
    (a0 : BTree α) (b0 : α) (c0 : BTree α)
    (hp : subtreeAt t p = some (BTree.node a0 b0 c0))
    (hadj : adjPaths t p q) : rbStep t (RPtr.node p) = RPtr.node q := by
  cases hadj with
  | inl h =>
    obtain ⟨a, b, c, hsub, hq⟩ := h
    subst hq
    have hnode : isNodeAt t (p ++ [Dir.R]) = true := by simp [isNodeAt, hsub]
    have hr : ptrRight t (RPtr.node p) = RPtr.node (p ++ [Dir.R]) := by
      simp [ptrRight, childPtr, hnode]
    have hfuel : (minPath (BTree.node a b c)).length < sizeFuel t := by
      have h1 := minPath_length_le (BTree.node a b c)
      have h2 := subtreeAt_size_le (p ++ [Dir.R]) t _ hsub
      simp only [sizeFuel]
      omega
    have hdesc := descendLeft_min t (BTree.node a b c) (p ++ [Dir.R]) (sizeFuel t)
      hsub (by simp) hfuel
    unfold rbStep
    rw [hr]
    dsimp only
    rw [hdesc]
    simp [List.append_assoc]
  | inr h =>
    obtain ⟨hnb, k, hpq⟩ := h
    subst hpq
    have hr : ptrRight t (RPtr.node (q ++ Dir.L :: List.replicate k Dir.R)) = RPtr.null := by
      show childPtr t (q ++ Dir.L :: List.replicate k Dir.R) Dir.R = RPtr.null
      unfold childPtr
      have hcontra : ¬ (isNodeAt t ((q ++ Dir.L :: List.replicate k Dir.R) ++ [Dir.R]) = true) := by
        rw [hnb]
        exact Bool.false_ne_true
      rw [if_neg hcontra]
    have hk2 : k < sizeFuel t := by
      have h2 := subtreeAt_size_le (q ++ Dir.L :: List.replicate k Dir.R) t _ hp
      have h3 : k < (q ++ Dir.L :: List.replicate k Dir.R).length := by
        simp [List.length_append, List.length_replicate]
        omega
      simp only [sizeFuel]
      omega
    have hasc := ascendLoop_spec t k q (sizeFuel t) (BTree.node a0 b0 c0) hp (by simp) hk2
    unfold rbStep
    rw [hr]
    dsimp only
    rw [hasc]
    dsimp only
    have hne : ptrRight t (RPtr.node (q ++ [Dir.L])) ≠ RPtr.node q := by
      simp only [ptrRight, childPtr]
      split
      · intro heq
        injection heq with h2
        have hlen := congrArg List.length h2
        simp only [List.length_append, List.length_cons, List.length_nil] at hlen
        omega
      · intro heq
        exact RPtr.noConfusion heq
    rw [if_pos hne]

/-- In-order adjacency lifts along a left edge. -/
theorem adjPaths_liftL {α : Type _} (l : BTree α) (v : α) (r : BTree α) (p q : TPath)
    (h : adjPaths l p q) : adjPaths (BTree.node l v r) (Dir.L :: p) (Dir.L :: q) := by
  cases h with
  | inl h =>
    obtain ⟨a, b, c, hsub, hq⟩ := h
    exact Or.inl ⟨a, b, c, hsub, by simp [hq]⟩
  | inr h =>
    obtain ⟨hnb, k, hp⟩ := h
    exact Or.inr ⟨hnb, k, by simp [hp]⟩

/-- In-order adjacency lifts along a right edge. -/
theorem adjPaths_liftR {α : Type _} (l : BTree α) (v : α) (r : BTree α) (p q : TPath)
    (h : adjPaths r p q) : adjPaths (BTree.node l v r) (Dir.R :: p) (Dir.R :: q) := by
  cases h with
  | inl h =>
    obtain ⟨a, b, c, hsub, hq⟩ := h
    exact Or.inl ⟨a, b, c, hsub, by simp [hq]⟩
  | inr h =>
    obtain ⟨hnb, k, hp⟩ := h
    exact Or.inr ⟨hnb, k, by simp [hp]⟩

/-- The maximum of the left subtree is in-order adjacent to the root. -/
theorem adjPaths_maxL {α : Type _} (l : BTree α) (v : α) (r : BTree α) (hl : l ≠ BTree.leaf) :
    adjPaths (BTree.node l v r) (Dir.L :: maxPath l) [] := by
  refine Or.inr ⟨?_, ?_⟩
  · show isNodeAt l (maxPath l ++ [Dir.R]) = false
    obtain ⟨l1, v1, r1, rfl⟩ : ∃ l1 v1 r1, l = BTree.node l1 v1 r1 := by
      cases l with
      | leaf => exact absurd rfl hl
      | node l1 v1 r1 => exact ⟨l1, v1, r1, rfl⟩
    obtain ⟨a, b, hmax⟩ := subtreeAt_maxPath l1 v1 r1
    unfold isNodeAt
    rw [subtreeAt_append, hmax]
    rfl
  · obtain ⟨k, hk⟩ := maxPath_replicate l
    exact ⟨k, by simp [hk]⟩

/-- The root is in-order adjacent to the minimum of the right subtree. -/
theorem adjPaths_minR {α : Type _} (l : BTree α) (v : α) (r : BTree α) (hr : r ≠ BTree.leaf) :
    adjPaths (BTree.node l v r) [] (Dir.R :: minPath r) := by
  obtain ⟨r1, v1, r2, rfl⟩ : ∃ a b c, r = BTree.node a b c := by
    cases r with
    | leaf => exact absurd rfl hr
    | node r1 v1 r2 => exact ⟨r1, v1, r2, rfl⟩
  exact Or.inl ⟨r1, v1, r2, rfl, rfl⟩

/-- The in-order path sequence is a chain under structural in-order
adjacency: consecutive paths are in-order successors. -/
theorem chain_adjPaths {α : Type _} : ∀ t : BTree α, List.Chain' (adjPaths t) (inorderPaths t) := by
  intro t
  induction t with
  | leaf => simp [inorderPaths]
  | node l v r ihl ihr =>
    rw [inorderPaths, List.chain'_append, List.chain'_append]
    refine ⟨⟨?_, ?_, ?_⟩, ?_, ?_⟩
    · rw [List.chain'_map]
      exact List.Chain'.imp (fun a b hab => adjPaths_liftL l v r a b hab) ihl
    · simp
    · intro x hx y hy
      simp at hy
      subst hy
      by_cases hl : l = BTree.leaf
      · subst hl
        simp [inorderPaths] at hx
      · rw [List.getLast?_map, ip_getLast l hl] at hx
        simp at hx
        subst hx
        exact adjPaths_maxL l v r hl
    · rw [List.chain'_map]
      exact List.Chain'.imp (fun a b hab => adjPaths_liftR l v r a b hab) ihr
    · intro x hx y hy
      rw [List.getLast?_concat] at hx
      simp at hx
      subst hx
      by_cases hr : r = BTree.leaf
      · subst hr
        simp [inorderPaths] at hy
      · rw [List.head?_map, ip_head r hr] at hy
        simp at hy
        subst hy
        exact adjPaths_minR l v r hr

/-- Once the declared count is reached, the iterator yields nothing
more, whatever the current node pointer. -/
theorem rbNext_stopped {α : Type _} (rt : RbTreeVal α) (x : RPtr) (m : Nat) :
    iterate (rbNext rt) m ⟨x, rt.nodeCount⟩ = [] := by
  cases m with
  | zero => rfl
  | succ m => simp [iterate, rbNext]

/-- The head of a list with a known `head?`. -/
theorem get_zero_of_head {β : Type _} (l : List β) (x : β) (hl : 0 < l.length)
    (hh : l.head? = some x) : l.get ⟨0, hl⟩ = x := by
  cases l with
  | nil => simp at hl
  | cons a as =>
    simp at hh
    exact hh

/-- Run lemma: from the `i`-th in-order node with count `i`, `m` more
pulls yield then next `m` in-order node pointers. -/
theorem rbNext_run {α : Type _} (rt : RbTreeVal α) (h : rt.nodeCount = rt.tree.size) :
    ∀ (m i : Nat) (hi : i < (inorderPaths rt.tree).length),
      iterate (rbNext rt) m ⟨RPtr.node ((inorderPaths rt.tree).get ⟨i, hi⟩), i⟩ =
        (((inorderPaths rt.tree).map RPtr.node).drop i).take m := by
  intro m
  induction m with
  | zero => intro i hi; rfl
  | succ m ih =>
    intro i hi
    have hN : rt.nodeCount = (inorderPaths rt.tree).length := by rw [h, ip_length]
    have hne : ¬ (i = rt.nodeCount) := by omega
    by_cases hlt : i + 1 < rt.nodeCount
    · have hi1 : i + 1 < (inorderPaths rt.tree).length := by omega
      have hadj : adjPaths rt.tree ((inorderPaths rt.tree).get ⟨i, hi⟩)
          ((inorderPaths rt.tree).get ⟨i + 1, hi1⟩) := by
        have hc := chain_adjPaths rt.tree
        rw [List.chain'_iff_get] at hc
        exact hc i (by omega)
      obtain ⟨a, b, c, hsubp⟩ := ip_mem_node rt.tree _ (List.get_mem _ _ _)
      have hstep := rbStep_adj rt.tree _ _ a b c hsubp hadj
      have hnext : rbNext rt ⟨RPtr.node ((inorderPaths rt.tree).get ⟨i, hi⟩), i⟩ =
          some (RPtr.node ((inorderPaths rt.tree).get ⟨i, hi⟩),
            ⟨RPtr.node ((inorderPaths rt.tree).get ⟨i + 1, hi1⟩), i + 1⟩) := by
        simp only [rbNext]
        rw [if_neg hne, if_pos hlt, hstep]
      have hcons : iterate (rbNext rt) (m + 1)
            ⟨RPtr.node ((inorderPaths rt.tree).get ⟨i, hi⟩), i⟩ =
          RPtr.node ((inorderPaths rt.tree).get ⟨i, hi⟩) ::
            iterate (rbNext rt) m ⟨RPtr.node ((inorderPaths rt.tree).get ⟨i + 1, hi1⟩), i + 1⟩ := by
        simp only [iterate]
        rw [hnext]
      have hmi : i < ((inorderPaths rt.tree).map RPtr.node).length := by
        rw [List.length_map]; exact hi
      have hrhs : (((inorderPaths rt.tree).map RPtr.node).drop i).take (m + 1) =
          RPtr.node ((inorderPaths rt.tree).get ⟨i, hi⟩) ::
            ((((inorderPaths rt.tree).map RPtr.node).drop (i + 1)).take m) := by
        rw [List.drop_eq_get_cons hmi, List.take_succ_cons]
        congr 1
        simp [List.get_map]
      rw [hcons, ih (i + 1) hi1, hrhs]
    · have hieq : i + 1 = rt.nodeCount := by omega
      have hnext : rbNext rt ⟨RPtr.node ((inorderPaths rt.tree).get ⟨i, hi⟩), i⟩ =
          some (RPtr.node ((inorderPaths rt.tree).get ⟨i, hi⟩),
            ⟨RPtr.node ((inorderPaths rt.tree).get ⟨i, hi⟩), i + 1⟩) := by
        simp only [rbNext]
        rw [if_neg hne, if_neg hlt]
      have hcons : iterate (rbNext rt) (m + 1)
            ⟨RPtr.node ((inorderPaths rt.tree).get ⟨i, hi⟩), i⟩ =
          RPtr.node ((inorderPaths rt.tree).get ⟨i, hi⟩) ::
            iterate (rbNext rt) m ⟨RPtr.node ((inorderPaths rt.tree).get ⟨i, hi⟩), i + 1⟩ := by
        simp only [iterate]
        rw [hnext]
      have hstop : iterate (rbNext rt) m
          ⟨RPtr.node ((inorderPaths rt.tree).get ⟨i, hi⟩), i + 1⟩ = [] := by
        rw [hieq]
        exact rbNext_stopped rt _ m
      have hmi : i < ((inorderPaths rt.tree).map RPtr.node).length := by
        rw [List.length_map]; exact hi
      have hlast : ((inorderPaths rt.tree).map RPtr.node).drop i =
          [RPtr.node ((inorderPaths rt.tree).get ⟨i, hi⟩)] := by
        rw [List.drop_eq_get_cons hmi]
        have hnil : ((inorderPaths rt.tree).map RPtr.node).drop (i + 1) = [] := by
          apply List.drop_eq_nil_of_le
          rw [List.length_map]
          omega
        rw [hnil]
        congr 1
        simp [List.get_map]
      rw [hcons, hstop, hlast]
      simp

/-- **C4.** For every ordered container whose declared node count
equals the number of physical tree nodes `N`, the `RbtreeIterator`
yields, for any number `m` of pulls, exactly the first `min m N`
in-order node pointers — so exactly `N` elements in all, with
`StopIteration` (`none`) on every pull after the `N`-th and no link
followed beyond it — and the values read off the yielded nodes are the
in-order (ascending key position) value sequence, whatever the
physical arrangement of the tree. -/
theorem C4_rbtree_iteration {α : Type _} (rt : RbTreeVal α)
    (h : rt.nodeCount = rt.tree.size) (m : Nat) :
    iterate (rbNext rt) m (rbInit rt) = ((inorderPaths rt.tree).map RPtr.node).take m ∧
    (iterate (rbNext rt) m (rbInit rt)).map (valueAt rt.tree) =
      ((BTree.inorder rt.tree).map some).take m := by
  have hmain : iterate (rbNext rt) m (rbInit rt) =
      ((inorderPaths rt.tree).map RPtr.node).take m := by
    obtain ⟨t, N⟩ := rt
    dsimp only at h ⊢
    cases t with
    | leaf =>
      simp only [BTree.size] at h
      subst h
      cases m with
      | zero => rfl
      | succ m => simp [iterate, rbNext, rbInit, inorderPaths]
    | node l v r =>
      have hroot : isNodeAt (BTree.node l v r) [] = true := rfl
      have hinit : rbInit ⟨BTree.node l v r, N⟩ =
          ⟨RPtr.node (minPath (BTree.node l v r)), 0⟩ := by
        simp [rbInit, ptrLeft, hroot]
      have hlen0 : 0 < (inorderPaths (BTree.node l v r)).length := by
        rw [ip_length]
        simp [BTree.size]
      have hget0 : (inorderPaths (BTree.node l v r)).get ⟨0, hlen0⟩ =
          minPath (BTree.node l v r) :=
        get_zero_of_head _ _ hlen0 (ip_head _ (by simp))
      have hrun := rbNext_run ⟨BTree.node l v r, N⟩ h m 0 hlen0
      rw [hinit, ← hget0, hrun, List.drop_zero]
  refine ⟨hmain, ?_⟩
  rw [hmain, List.map_take, List.map_map]
  have hcomp : (valueAt rt.tree ∘ RPtr.node) = (fun p => valueAt rt.tree (RPtr.node p)) := rfl
  rw [hcomp, ip_values]

/-- C4 witness: the unbalanced three-node tree `exTree` with declared
count 3, pulled five times. -/
theorem C4_witness :
    exRbt.nodeCount = exRbt.tree.size ∧
    (iterate (rbNext exRbt) 5 (rbInit exRbt) =
        ((inorderPaths exRbt.tree).map RPtr.node).take 5 ∧
      (iterate (rbNext exRbt) 5 (rbInit exRbt)).map (valueAt exRbt.tree) =
        ((BTree.inorder exRbt.tree).map some).take 5) :=
  ⟨rfl, C4_rbtree_iteration exRbt rfl 5⟩

end GdbPrinters
